import Mathlib

/-!
# Verification of the agentic-system demo

A shallow embedding of `src/agentic_system.py`: a `CalculatorTool` (character
allow-list followed by `eval`), a scripted `MockLLMProvider`, an append-only
`Memory` of `Message`s, and `Agent.run`, the think/act/observe loop that
parses the model response as JSON and dispatches to a tool.

Conventions of the embedding:
* Python exceptions are modelled with `Except PyExn` / an explicit `exn` field;
  `try/except` blocks become `match` on the `Except` value.
* CPython `eval` is modelled on the arithmetic fragment reachable through the
  calculator's character allow-list: integer and decimal literals, unary `+`/`-`,
  binary `+ - * / // **`, and parentheses.  Python floats are modelled as exact
  rationals; the places where IEEE-754 rounding or float formatting would differ
  are marked with comments and are not relied on by any theorem below.
* Recursive scanners (tokenizer, expression parser, JSON parser) take an explicit
  fuel argument so that they are structurally recursive and compute by `rfl`;
  fuel is seeded generously from the input length.
-/

namespace AgenticSystem

/-! ## Characters and digits -/

/-- The calculator's character allow-list, from
`allowed_chars = set("0123456789+-*/(). ")`. -/
def allowedChars : List Char := "0123456789+-*/(). ".data

/-- `all(c in allowed_chars for c in expression)`. -/
def okChars (e : String) : Bool := e.data.all (fun c => allowedChars.contains c)

/-- Numeric value of a digit character. -/
def digitVal (c : Char) : Nat := c.toNat - 48

/-- Value of a digit string, most significant digit first. -/
def digitsVal (cs : List Char) : Nat := cs.foldl (fun a c => 10 * a + digitVal c) 0

/-- Fueled decimal rendering of a natural number (fuel ≥ 1 + number of digits). -/
def natDigsF : Nat → Nat → List Char
  | 0, _ => []
  | f + 1, n =>
    if n < 10 then [Char.ofNat (48 + n)]
    else natDigsF f (n / 10) ++ [Char.ofNat (48 + n % 10)]

/-- Decimal digits of a natural number, as `str` renders it. -/
def natDigs (n : Nat) : List Char := natDigsF (n + 1) n

/-- Decimal rendering of an integer, as Python `str(int)` renders it. -/
def intStr (n : Int) : String :=
  if n < 0 then "-" ++ String.mk (natDigs n.natAbs) else String.mk (natDigs n.natAbs)

/-! ## Python exceptions -/

/-- The exceptions the embedded fragment can raise.  All of them are subclasses
of Python `Exception`, so `except Exception` catches every one of them. -/
inductive PyExn where
  /-- `TypeError` (bad keyword arguments, unhashable membership probe, …). -/
  | typeErr
  /-- `AttributeError` (`.get` on a non-dict). -/
  | attrErr
  /-- `IndexError` (`messages[-1]` on an empty list). -/
  | indexErr
  /-- `ZeroDivisionError`. -/
  | zeroDiv
  /-- `SyntaxError` raised by `eval` on malformed expressions. -/
  | synErr
deriving Repr, DecidableEq

/-- `str(e)` for the caught exception, as interpolated into
`f"Error executing calculation: {e}"`.  The exact CPython message text varies
with the error site; this model uses one representative message per class, and
no theorem below depends on these strings beyond their use in `execute`. -/
def pyExnMsg : PyExn → String
  | .typeErr => "type error"
  | .attrErr => "attribute error"
  | .indexErr => "list index out of range"
  | .zeroDiv => "division by zero"
  | .synErr => "invalid syntax (<string>, line 1)"

/-! ## Tokenizer for the arithmetic fragment -/

/-- Tokens of the Python expression grammar restricted to the allow-list. -/
inductive Tok where
  | int (n : Nat)
  | flt (q : ℚ)
  | plus
  | minus
  | star
  | slash
  | dstar
  | dslash
  | lpar
  | rpar
deriving Repr, DecidableEq

/-- Value of a decimal literal with integer part `ds` and fractional part `fs`. -/
def fltVal (ds fs : List Char) : ℚ :=
  (digitsVal ds : ℚ) + (digitsVal fs : ℚ) / ((10 : ℚ) ^ fs.length)

/-- Python 3 rejects nonzero integer literals with leading zeros
(`eval("01")` is a `SyntaxError`, `eval("00")` is fine). -/
def leadZeroBad (ds : List Char) : Bool :=
  ds.head? == some '0' && ds.any (fun c => c ≠ '0')

/-- Fueled tokenizer over the allow-list characters.  Mirrors the CPython
tokenizer on this fragment: spaces separate tokens, maximal digit runs with an
optional fractional part form number literals, `**` and `//` are single tokens. -/
def tokF : Nat → List Char → Option (List Tok)
  | _, [] => some []
  | 0, _ :: _ => none
  | f + 1, c :: cs =>
    if c = ' ' then tokF f cs
    else if c.isDigit then
      let ds := (c :: cs).takeWhile Char.isDigit
      let rest := (c :: cs).dropWhile Char.isDigit
      match rest with
      | '.' :: rest2 =>
        let fs := rest2.takeWhile Char.isDigit
        let rest3 := rest2.dropWhile Char.isDigit
        (tokF f rest3).map (fun ts => Tok.flt (fltVal ds fs) :: ts)
      | _ =>
        if leadZeroBad ds then none
        else (tokF f rest).map (fun ts => Tok.int (digitsVal ds) :: ts)
    else if c = '.' then
      match cs with
      | d :: _ =>
        if d.isDigit then
          let fs := cs.takeWhile Char.isDigit
          let rest2 := cs.dropWhile Char.isDigit
          (tokF f rest2).map (fun ts => Tok.flt (fltVal [] fs) :: ts)
        else none
      | [] => none
    else if c = '+' then (tokF f cs).map (fun ts => Tok.plus :: ts)
    else if c = '-' then (tokF f cs).map (fun ts => Tok.minus :: ts)
    else if c = '(' then (tokF f cs).map (fun ts => Tok.lpar :: ts)
    else if c = ')' then (tokF f cs).map (fun ts => Tok.rpar :: ts)
    else if c = '*' then
      match cs with
      | '*' :: cs2 => (tokF f cs2).map (fun ts => Tok.dstar :: ts)
      | _ => (tokF f cs).map (fun ts => Tok.star :: ts)
    else if c = '/' then
      match cs with
      | '/' :: cs2 => (tokF f cs2).map (fun ts => Tok.dslash :: ts)
      | _ => (tokF f cs).map (fun ts => Tok.slash :: ts)
    else none

/-- Tokenize a string (with ample fuel: every step consumes at least one char). -/
def pyTok (e : String) : Option (List Tok) := tokF (e.data.length + 1) e.data

/-! ## Python expression AST and parser -/

/-- Abstract syntax of the Python expression fragment. -/
inductive PyAst where
  | intLit (n : Nat)
  | fltLit (q : ℚ)
  | pos (a : PyAst)
  | neg (a : PyAst)
  | add (a b : PyAst)
  | sub (a b : PyAst)
  | mul (a b : PyAst)
  | div (a b : PyAst)
  | fdiv (a b : PyAst)
  | pow (a b : PyAst)
deriving Repr, DecidableEq

/-- Parser modes: one per nonterminal of the Python grammar fragment
`expr := term (('+'|'-') term)*`, `term := factor (('*'|'/'|'//') factor)*`,
`factor := ('+'|'-') factor | power`, `power := atom ['**' factor]`,
`atom := NUMBER | '(' expr ')'`, plus accumulator modes for the loops. -/
inductive PMode where
  | expr
  | exprGo (a : PyAst)
  | term
  | termGo (a : PyAst)
  | fact
  | powr
  | atom

/-- Fueled recursive-descent parser for the Python expression grammar fragment
(precedences: `**` > unary `+`/`-` > `*`/`/`//` > binary `+`/`-`). -/
def parseM : Nat → PMode → List Tok → Option (PyAst × List Tok)
  | 0, _, _ => none
  | f + 1, m, ts =>
    match m with
    | .expr =>
      match parseM f .term ts with
      | some (a, ts1) => parseM f (.exprGo a) ts1
      | none => none
    | .exprGo a =>
      match ts with
      | .plus :: ts2 =>
        match parseM f .term ts2 with
        | some (b, ts3) => parseM f (.exprGo (.add a b)) ts3
        | none => none
      | .minus :: ts2 =>
        match parseM f .term ts2 with
        | some (b, ts3) => parseM f (.exprGo (.sub a b)) ts3
        | none => none
      | _ => some (a, ts)
    | .term =>
      match parseM f .fact ts with
      | some (a, ts1) => parseM f (.termGo a) ts1
      | none => none
    | .termGo a =>
      match ts with
      | .star :: ts2 =>
        match parseM f .fact ts2 with
        | some (b, ts3) => parseM f (.termGo (.mul a b)) ts3
        | none => none
      | .slash :: ts2 =>
        match parseM f .fact ts2 with
        | some (b, ts3) => parseM f (.termGo (.div a b)) ts3
        | none => none
      | .dslash :: ts2 =>
        match parseM f .fact ts2 with
        | some (b, ts3) => parseM f (.termGo (.fdiv a b)) ts3
        | none => none
      | _ => some (a, ts)
    | .fact =>
      match ts with
      | .plus :: ts2 => (parseM f .fact ts2).map (fun p => (.pos p.1, p.2))
      | .minus :: ts2 => (parseM f .fact ts2).map (fun p => (.neg p.1, p.2))
      | _ => parseM f .powr ts
    | .powr =>
      match parseM f .atom ts with
      | some (a, ts1) =>
        match ts1 with
        | .dstar :: ts2 => (parseM f .fact ts2).map (fun p => (.pow a p.1, p.2))
        | _ => some (a, ts1)
      | none => none
    | .atom =>
      match ts with
      | .int n :: ts2 => some (.intLit n, ts2)
      | .flt q :: ts2 => some (.fltLit q, ts2)
      | .lpar :: ts2 =>
        match parseM f .expr ts2 with
        | some (a, .rpar :: ts3) => some (a, ts3)
        | _ => none
      | _ => none

/-- Parse a full token list as one expression. -/
def pyParse (ts : List Tok) : Option PyAst :=
  match parseM (5 * ts.length + 10) .expr ts with
  | some (a, []) => some a
  | _ => none

/-! ## Python runtime values and evaluation -/

/-- Runtime values of the fragment: `int` (arbitrary precision, exact) and
`float`.  Python floats are IEEE-754 doubles; this model carries the exact
rational value instead.  No theorem below inspects a float value produced by an
operation where the two differ. -/
inductive PyVal where
  | int (n : Int)
  | flt (q : ℚ)
deriving Repr, DecidableEq

/-- The numeric value of a `PyVal` as a rational. -/
def PyVal.q : PyVal → ℚ
  | .int n => n
  | .flt x => x

/-- Is the value a float? -/
def PyVal.isFlt : PyVal → Bool
  | .int _ => false
  | .flt _ => true

/-- Python `+` on numbers: int when both are ints, float otherwise. -/
def pyAdd (a b : PyVal) : PyVal :=
  match a, b with
  | .int x, .int y => .int (x + y)
  | _, _ => .flt (a.q + b.q)

/-- Python binary `-`. -/
def pySub (a b : PyVal) : PyVal :=
  match a, b with
  | .int x, .int y => .int (x - y)
  | _, _ => .flt (a.q - b.q)

/-- Python `*`. -/
def pyMul (a b : PyVal) : PyVal :=
  match a, b with
  | .int x, .int y => .int (x * y)
  | _, _ => .flt (a.q * b.q)

/-- Python unary `-`. -/
def pyNeg (a : PyVal) : PyVal :=
  match a with
  | .int x => .int (-x)
  | .flt x => .flt (-x)

/-- Python `/`: true division, always a float; `ZeroDivisionError` on a zero
divisor.  (CPython rounds the quotient to binary64; the model keeps it exact.) -/
def pyDiv (a b : PyVal) : Except PyExn PyVal :=
  if b.q = 0 then .error .zeroDiv else .ok (.flt (a.q / b.q))

/-- Python `//`: floor division; int on ints, float otherwise;
`ZeroDivisionError` on a zero divisor. -/
def pyFdiv (a b : PyVal) : Except PyExn PyVal :=
  if b.q = 0 then .error .zeroDiv
  else
    match a, b with
    | .int x, .int y => .ok (.int (Int.fdiv x y))
    | _, _ => .ok (.flt ((⌊a.q / b.q⌋ : Int) : ℚ))

/-- Python `**` on the modelled values.  `int ** nonnegative int` is exact;
a negative integer exponent yields a float; `0 ** negative` raises
`ZeroDivisionError`.  A non-integral exponent produces an irrational (or
complex) float in CPython; the model returns a placeholder float value there,
and no theorem below inspects it. -/
def pyPow (a b : PyVal) : Except PyExn PyVal :=
  match a, b with
  | .int x, .int y =>
    if 0 ≤ y then .ok (.int (x ^ y.toNat))
    else if x = 0 then .error .zeroDiv
    else .ok (.flt (((x : ℚ) ^ (-y).toNat)⁻¹))
  | _, _ =>
    if b.q.den = 1 then
      if 0 ≤ b.q.num then .ok (.flt (a.q ^ b.q.num.toNat))
      else if a.q = 0 then .error .zeroDiv
      else .ok (.flt ((a.q ^ (-b.q.num).toNat)⁻¹))
    else .ok (.flt 0)

/-- Evaluate a parsed expression, CPython-style. -/
def pyEvalAst : PyAst → Except PyExn PyVal
  | .intLit n => .ok (.int n)
  | .fltLit q => .ok (.flt q)
  | .pos a => pyEvalAst a
  | .neg a => (pyEvalAst a).map pyNeg
  | .add a b => do pure (pyAdd (← pyEvalAst a) (← pyEvalAst b))
  | .sub a b => do pure (pySub (← pyEvalAst a) (← pyEvalAst b))
  | .mul a b => do pure (pyMul (← pyEvalAst a) (← pyEvalAst b))
  | .div a b => do pyDiv (← pyEvalAst a) (← pyEvalAst b)
  | .fdiv a b => do pyFdiv (← pyEvalAst a) (← pyEvalAst b)
  | .pow a b => do pyPow (← pyEvalAst a) (← pyEvalAst b)

/-- `eval(expression)` on the modelled fragment: tokenize, parse, evaluate.
Failures at any stage are exceptions (all `Exception` subclasses). -/
def pyRun (e : String) : Except PyExn PyVal :=
  match pyTok e with
  | none => .error .synErr
  | some ts =>
    match pyParse ts with
    | some a => pyEvalAst a
    | none => .error .synErr

/-- `str()` of a runtime value.  For ints this is the exact decimal string.
For floats CPython prints the shortest round-tripping decimal; the model prints
`<int>.0` for integral floats (matching CPython) and a placeholder otherwise —
no theorem below inspects the non-integral case. -/
def pyValStr : PyVal → String
  | .int n => intStr n
  | .flt q =>
    if q.den = 1 then intStr q.num ++ ".0"
    else intStr q.num ++ "/" ++ String.mk (natDigs q.den)

/-! ## CalculatorTool.execute -/

/-- The body of the `try:` block of `CalculatorTool.execute`: validate the
allow-list, then `str(eval(expression))`. -/
def executeBody (e : String) : Except PyExn String :=
  if okChars e = false then .ok "Error: Invalid characters in expression."
  else (pyRun e).map pyValStr

/-- `CalculatorTool.execute(expression)`: the `try/except Exception` wrapper
turns every raised exception into an error-text result. -/
def execute (e : String) : String :=
  match executeBody e with
  | .ok s => s
  | .error ex => "Error executing calculation: " ++ pyExnMsg ex

/-! ## JSON values, `json.loads` and `json.dumps`

`Agent.run` parses the model response with `json.loads`; the mock model builds
its decision payload with `json.dumps`.  `JVal` models the Python values
`json.loads` can produce (`None`, `bool`, `int`, `float` — including the
non-standard `NaN`/`Infinity` extensions CPython accepts — `str`, `list`,
`dict`). -/

/-- A value decoded from JSON.  Floats are carried as exact rationals; CPython
rounds to binary64 (and overflows to `inf`), which no theorem below relies on. -/
inductive JVal where
  | jnull
  | jbool (b : Bool)
  | jint (n : Int)
  | jfloat (q : ℚ)
  | jnan
  | jinf (negative : Bool)
  | jstr (s : String)
  | jarr (items : List JVal)
  | jobj (kvs : List (String × JVal))
deriving Repr

/-- The `\x7b` character. -/
def lbrace : Char := Char.ofNat 123

/-- The `\x7d` character. -/
def rbrace : Char := Char.ofNat 125

/-- JSON whitespace. -/
def jWs (c : Char) : Bool := c = ' ' || c = '\t' || c = '\n' || c = '\r'

/-- Dictionary lookup on decoded objects (keys are unique by construction of
the decoder). -/
def objGet (kvs : List (String × JVal)) (k : String) : Option JVal :=
  match kvs with
  | [] => none
  | (k2, v) :: rest => if k2 = k then some v else objGet rest k

/-- `d[k] = v` on a Python dict built during decoding: a duplicate key keeps
its original position and takes the new value (last value wins). -/
def objInsert (kvs : List (String × JVal)) (k : String) (v : JVal) :
    List (String × JVal) :=
  match kvs with
  | [] => [(k, v)]
  | (k2, v2) :: rest =>
    if k2 = k then (k2, v) :: rest else (k2, v2) :: objInsert rest k v

/-- Hex digit value. -/
def hexVal (c : Char) : Option Nat :=
  if c.isDigit then some (c.toNat - 48)
  else if 'a' ≤ c && c ≤ 'f' then some (c.toNat - 87)
  else if 'A' ≤ c && c ≤ 'F' then some (c.toNat - 55)
  else none

/-- Read the body of a JSON string after the opening quote, handling the JSON
escapes.  A `\uXXXX` high surrogate must be followed by a low surrogate (CPython
additionally tolerates lone surrogates, which `Char` cannot represent; those
exotic inputs decode to `none` here and no theorem below touches them). -/
def jStrRead (acc : List Char) : List Char → Option (String × List Char)
  | [] => none
  | '"' :: rest => some (String.mk acc.reverse, rest)
  | '\\' :: esc =>
    match esc with
    | '"' :: rest => jStrRead ('"' :: acc) rest
    | '\\' :: rest => jStrRead ('\\' :: acc) rest
    | '/' :: rest => jStrRead ('/' :: acc) rest
    | 'b' :: rest => jStrRead (Char.ofNat 8 :: acc) rest
    | 'f' :: rest => jStrRead (Char.ofNat 12 :: acc) rest
    | 'n' :: rest => jStrRead ('\n' :: acc) rest
    | 'r' :: rest => jStrRead (Char.ofNat 13 :: acc) rest
    | 't' :: rest => jStrRead ('\t' :: acc) rest
    | 'u' :: h1 :: h2 :: h3 :: h4 :: rest =>
      match hexVal h1, hexVal h2, hexVal h3, hexVal h4 with
      | some a, some b, some c, some d =>
        let code := ((a * 16 + b) * 16 + c) * 16 + d
        if 0xD800 ≤ code ∧ code ≤ 0xDBFF then
          match rest with
          | '\\' :: 'u' :: k1 :: k2 :: k3 :: k4 :: rest2 =>
            match hexVal k1, hexVal k2, hexVal k3, hexVal k4 with
            | some a2, some b2, some c2, some d2 =>
              let low := ((a2 * 16 + b2) * 16 + c2) * 16 + d2
              if 0xDC00 ≤ low ∧ low ≤ 0xDFFF then
                jStrRead
                  (Char.ofNat (0x10000 + (code - 0xD800) * 0x400 + (low - 0xDC00)) :: acc)
                  rest2
              else none
            | _, _, _, _ => none
          | _ => none
        else if 0xDC00 ≤ code ∧ code ≤ 0xDFFF then none
        else jStrRead (Char.ofNat code :: acc) rest
      | _, _, _, _ => none
    | _ => none
  | c :: rest => if c.toNat < 0x20 then none else jStrRead (c :: acc) rest

/-- Read a JSON number (after an optional leading `-` handled by the caller):
`int frac? exp?` with `int = 0 | [1-9][0-9]*`.  A number with a fractional or
exponent part decodes to a Python float, otherwise to an int. -/
def jNumRead (negative : Bool) (cs : List Char) : Option (JVal × List Char) :=
  match cs with
  | [] => none
  | c :: _ =>
    if ¬c.isDigit then none
    else
      let ds := cs.takeWhile Char.isDigit
      let r1 := cs.dropWhile Char.isDigit
      if c = '0' ∧ ds.length ≠ 1 then none
      else
        let ip : Nat := digitsVal ds
        let readExp : List Char → Option (Option (Bool × Nat) × List Char) :=
          fun r =>
            match r with
            | 'e' :: r2 | 'E' :: r2 =>
              let (esign, r3) :=
                match r2 with
                | '+' :: r4 => (false, r4)
                | '-' :: r4 => (true, r4)
                | _ => (false, r2)
              match r3 with
              | d :: _ =>
                if d.isDigit then
                  some (some (esign, digitsVal (r3.takeWhile Char.isDigit)),
                    r3.dropWhile Char.isDigit)
                else none
              | [] => none
            | _ => some (none, r)
        match r1 with
        | '.' :: r2 =>
          match r2 with
          | d :: _ =>
            if ¬d.isDigit then none
            else
              let fs := r2.takeWhile Char.isDigit
              let r3 := r2.dropWhile Char.isDigit
              match readExp r3 with
              | some (eo, r4) =>
                let base : ℚ := (ip : ℚ) + (digitsVal fs : ℚ) / ((10 : ℚ) ^ fs.length)
                let withExp : ℚ :=
                  match eo with
                  | none => base
                  | some (true, e) => base / ((10 : ℚ) ^ e)
                  | some (false, e) => base * ((10 : ℚ) ^ e)
                some (.jfloat (if negative then -withExp else withExp), r4)
              | none => none
          | [] => none
        | _ =>
          match readExp r1 with
          | some (none, r4) =>
            some (.jint (if negative then -(ip : Int) else (ip : Int)), r4)
          | some (some (true, e), r4) =>
            let v : ℚ := (ip : ℚ) / ((10 : ℚ) ^ e)
            some (.jfloat (if negative then -v else v), r4)
          | some (some (false, e), r4) =>
            let v : ℚ := (ip : ℚ) * ((10 : ℚ) ^ e)
            some (.jfloat (if negative then -v else v), r4)
          | none => none

mutual
/-- Fueled JSON value decoder, modelling `json.loads`' recursive descent
(including the CPython extensions `NaN`, `Infinity`, `-Infinity`). -/
def jValF : Nat → List Char → Option (JVal × List Char)
  | 0, _ => none
  | f + 1, cs0 =>
    match cs0.dropWhile jWs with
    | [] => none
    | c :: cs =>
      if c = lbrace then
        match cs.dropWhile jWs with
        | c2 :: cs2 =>
          if c2 = rbrace then some (.jobj [], cs2) else jObjF f [] (c2 :: cs2)
        | [] => none
      else if c = '[' then
        match cs.dropWhile jWs with
        | ']' :: cs2 => some (.jarr [], cs2)
        | _ => jArrF f [] cs
      else if c = '"' then
        match jStrRead [] cs with
        | some (s, rest) => some (.jstr s, rest)
        | none => none
      else if c = '-' then
        match cs with
        | 'I' :: 'n' :: 'f' :: 'i' :: 'n' :: 'i' :: 't' :: 'y' :: rest =>
          some (.jinf true, rest)
        | _ => jNumRead true cs
      else if c.isDigit then jNumRead false (c :: cs)
      else if c = 't' then
        match cs with
        | 'r' :: 'u' :: 'e' :: rest => some (.jbool true, rest)
        | _ => none
      else if c = 'f' then
        match cs with
        | 'a' :: 'l' :: 's' :: 'e' :: rest => some (.jbool false, rest)
        | _ => none
      else if c = 'n' then
        match cs with
        | 'u' :: 'l' :: 'l' :: rest => some (.jnull, rest)
        | _ => none
      else if c = 'N' then
        match cs with
        | 'a' :: 'N' :: rest => some (.jnan, rest)
        | _ => none
      else if c = 'I' then
        match cs with
        | 'n' :: 'f' :: 'i' :: 'n' :: 'i' :: 't' :: 'y' :: rest => some (.jinf false, rest)
        | _ => none
      else none

/-- Decode object members from the first key on; `acc` holds members read so
far (duplicate keys follow Python dict semantics via `objInsert`). -/
def jObjF : Nat → List (String × JVal) → List Char → Option (JVal × List Char)
  | 0, _, _ => none
  | f + 1, acc, cs =>
    match cs.dropWhile jWs with
    | '"' :: cs1 =>
      match jStrRead [] cs1 with
      | some (k, cs2) =>
        match cs2.dropWhile jWs with
        | ':' :: cs3 =>
          match jValF f cs3 with
          | some (v, cs4) =>
            match cs4.dropWhile jWs with
            | ',' :: cs5 => jObjF f (objInsert acc k v) cs5
            | c6 :: cs6 =>
              if c6 = rbrace then some (.jobj (objInsert acc k v), cs6) else none
            | [] => none
          | none => none
        | _ => none
      | none => none
    | _ => none

/-- Decode array items from the first item on. -/
def jArrF : Nat → List JVal → List Char → Option (JVal × List Char)
  | 0, _, _ => none
  | f + 1, acc, cs =>
    match jValF f cs with
    | some (v, cs1) =>
      match cs1.dropWhile jWs with
      | ',' :: cs2 => jArrF f (acc ++ [v]) cs2
      | ']' :: cs2 => some (.jarr (acc ++ [v]), cs2)
      | _ => none
    | none => none
end

/-- `json.loads`: decode one value and require only whitespace after it
(otherwise `json.JSONDecodeError`, modelled as `none`). -/
def jsonLoads (s : String) : Option JVal :=
  match jValF (3 * s.data.length + 10) s.data with
  | some (v, rest) => if (rest.dropWhile jWs).isEmpty then some v else none
  | none => none

/-- Decimal rendering of the model's float rationals (used in `str()` output
positions).  Matches CPython exactly on integral values; non-integral floats
would be printed by CPython as shortest round-tripping decimals, which no
theorem below inspects. -/
def floatStr (q : ℚ) : String :=
  if q.den = 1 then intStr q.num ++ ".0"
  else intStr q.num ++ "/" ++ String.mk (natDigs q.den)

/-- Four-digit lowercase hex, for `\uXXXX` escapes. -/
def hex4 (n : Nat) : String :=
  let d := fun k =>
    if k < 10 then Char.ofNat (48 + k) else Char.ofNat (87 + k)
  String.mk [d (n / 4096 % 16), d (n / 256 % 16), d (n / 16 % 16), d (n % 16)]

/-- `json.dumps` escaping of one character (default `ensure_ascii=True`). -/
def jEscChar (c : Char) : String :=
  if c = '"' then "\\\""
  else if c = '\\' then "\\\\"
  else if c = '\n' then "\\n"
  else if c = '\t' then "\\t"
  else if c = Char.ofNat 13 then "\\r"
  else if c = Char.ofNat 8 then "\\b"
  else if c = Char.ofNat 12 then "\\f"
  else if c.toNat < 0x20 ∨ 127 ≤ c.toNat then "\\u" ++ hex4 c.toNat
  else String.mk [c]

mutual
/-- `json.dumps` with its default separators `", "` and `": "`. -/
def jsonDumps : JVal → String
  | .jnull => "null"
  | .jbool true => "true"
  | .jbool false => "false"
  | .jint n => intStr n
  | .jfloat q => floatStr q
  | .jnan => "NaN"
  | .jinf true => "-Infinity"
  | .jinf false => "Infinity"
  | .jstr s => "\"" ++ (s.data.map jEscChar).foldl (· ++ ·) "" ++ "\""
  | .jarr items => "[" ++ jsonDumpsL items ++ "]"
  | .jobj kvs => String.mk [lbrace] ++ jsonDumpsKvs kvs ++ String.mk [rbrace]

def jsonDumpsL : List JVal → String
  | [] => ""
  | [v] => jsonDumps v
  | v :: vs => jsonDumps v ++ ", " ++ jsonDumpsL vs

def jsonDumpsKvs : List (String × JVal) → String
  | [] => ""
  | [(k, v)] => "\"" ++ k ++ "\": " ++ jsonDumps v
  | (k, v) :: kvs => "\"" ++ k ++ "\": " ++ jsonDumps v ++ ", " ++ jsonDumpsKvs kvs
end

mutual
/-- Python `repr()` of a decoded JSON value, as f-strings display containers.
String quoting/escaping is simplified to plain single quotes; only trace lines
(never a theorem's truth) depend on the exotic cases. -/
def jrepr : JVal → String
  | .jnull => "None"
  | .jbool true => "True"
  | .jbool false => "False"
  | .jint n => intStr n
  | .jfloat q => floatStr q
  | .jnan => "nan"
  | .jinf true => "-inf"
  | .jinf false => "inf"
  | .jstr s => "'" ++ s ++ "'"
  | .jarr items => "[" ++ jreprL items ++ "]"
  | .jobj kvs => String.mk [lbrace] ++ jreprKvs kvs ++ String.mk [rbrace]

def jreprL : List JVal → String
  | [] => ""
  | [v] => jrepr v
  | v :: vs => jrepr v ++ ", " ++ jreprL vs

def jreprKvs : List (String × JVal) → String
  | [] => ""
  | [(k, v)] => "'" ++ k ++ "': " ++ jrepr v
  | (k, v) :: kvs => "'" ++ k ++ "': " ++ jrepr v ++ ", " ++ jreprKvs kvs
end

/-- Python `str()` of a decoded JSON value, as f-strings display it. -/
def pyStr (v : JVal) : String :=
  match v with
  | .jstr s => s
  | _ => jrepr v

/-- Python truthiness of a decoded JSON value. -/
def truthy : JVal → Bool
  | .jnull => false
  | .jbool b => b
  | .jint n => n ≠ 0
  | .jfloat q => q ≠ 0
  | .jnan => true
  | .jinf _ => true
  | .jstr s => s ≠ ""
  | .jarr items => ¬items.isEmpty
  | .jobj kvs => ¬kvs.isEmpty

/-! ## Messages and Memory -/

/-- A conversational turn.  Roles used by the program: `"system"`, `"user"`,
`"assistant"`, `"tool"` (per the comment on the `role` field).  The only
metadata the program ever attaches is `\x7b"tool": tool_name\x7d`. -/
structure Message where
  role : String
  content : String
  metadata : List (String × String) := []
deriving Repr, DecidableEq

/-- The four roles named in the `Message.role` comment. -/
def permittedRoles : List String := ["system", "user", "assistant", "tool"]

/-- `Memory.add_message`: `self.messages.append(message)`. -/
def addMessage (ms : List Message) (m : Message) : List Message := ms ++ [m]

/-- `Memory.get_history`: returns `self.messages`. -/
def getHistory (ms : List Message) : List Message := ms

/-! ## The mock model -/

/-- Substring test on character lists (Python `pat in s`, for nonempty `pat`). -/
def startsWithL : List Char → List Char → Bool
  | [], _ => true
  | _ :: _, [] => false
  | p :: ps, c :: cs => p = c && startsWithL ps cs

/-- `pat in s` for character lists. -/
def containsSub (pat : List Char) : List Char → Bool
  | [] => pat.isEmpty
  | c :: cs => startsWithL pat (c :: cs) || containsSub pat cs

/-- `"calculate" in content.lower()`.  (Python `str.lower` and `Char.toLower`
agree on ASCII, which covers every string the program handles.) -/
def hasCalc (content : String) : Bool :=
  containsSub "calculate".data (content.data.map Char.toLower)

/-- The fixed thought text of the mock's decision payload. -/
def calcThought : String :=
  "The user wants to calculate something. I should use the calculator tool."

/-- The decision payload the mock serializes, as a Python dict literal. -/
def decisionObj : JVal :=
  .jobj [("thought", .jstr calcThought), ("tool", .jstr "calculator"),
    ("tool_input", .jobj [("expression", .jstr "25 * 4")])]

/-- `json.dumps` of the decision payload. -/
def decisionJson : String := jsonDumps decisionObj

/-- The mock's fixed reply for user messages without "calculate". -/
def simpleAgentText : String := "I am a simple agent. I can help you with calculations."

/-- The mock's fixed reply for roles other than user/tool. -/
def dontKnowText : String := "I don't know what to do."

/-- `MockLLMProvider.generate`: reads `messages[-1]` (an `IndexError` on an
empty history) and follows the scripted decision table. -/
def mockGenerate (messages : List Message) : Except PyExn String :=
  match messages.getLast? with
  | none => .error .indexErr
  | some last =>
    if last.role = "user" then
      if hasCalc last.content then .ok decisionJson
      else .ok simpleAgentText
    else if last.role = "tool" then
      .ok ("The result of the calculation is " ++ last.content)
    else .ok dontKnowText

/-! ## Tools and the agent loop -/

/-- A tool at the keyword-call boundary: `tool.execute(**tool_input)` receives
the decoded keyword/value pairs and either returns text or raises. -/
def PyTool : Type := List (String × JVal) → Except PyExn String

/-- Lookup in the dict `\x7bt.name: t for t in tools\x7d`: a later tool with the
same name overrides an earlier one. -/
def toolLookup (s : String) (tools : List (String × PyTool)) : Option PyTool :=
  match tools with
  | [] => none
  | (n, t) :: rest =>
    match toolLookup s rest with
    | some t2 => some t2
    | none => if n = s then some t else none

/-- Python type name of a decoded value (for error texts). -/
def jTypeName : JVal → String
  | .jnull => "NoneType"
  | .jbool _ => "bool"
  | .jint _ => "int"
  | .jfloat _ => "float"
  | .jnan => "float"
  | .jinf _ => "float"
  | .jstr _ => "str"
  | .jarr _ => "list"
  | .jobj _ => "dict"

/-- Is the value a one-character string from the allow-list?  (Iterating a
list/dict in `all(c in allowed_chars for c in expression)` compares its
elements/keys against the allow-list's single-character strings.) -/
def isAllowedCharStr (v : JVal) : Bool :=
  match v with
  | .jstr s =>
    match s.data with
    | [c] => allowedChars.contains c
    | _ => false
  | _ => false

/-- `CalculatorTool.execute` called with a non-`str` `expression`.  Every such
call still returns caught error text (iteration either fails with a `TypeError`
inside the `try`, or the allow-list check fails, or `eval` rejects a non-string
argument).  The message texts approximate CPython's; no theorem below inspects
them. -/
def executeNonStr (v : JVal) : String :=
  match v with
  | .jarr items =>
    if items.all isAllowedCharStr then
      "Error executing calculation: eval() arg 1 must be a string, bytes or code object"
    else "Error: Invalid characters in expression."
  | .jobj kvs =>
    if (kvs.map (fun p => JVal.jstr p.1)).all isAllowedCharStr then
      "Error executing calculation: eval() arg 1 must be a string, bytes or code object"
    else "Error: Invalid characters in expression."
  | _ =>
    "Error executing calculation: '" ++ jTypeName v ++ "' object is not iterable"

/-- `execute(expression=v)` for an arbitrary decoded value. -/
def executeVal (v : JVal) : String :=
  match v with
  | .jstr e => execute e
  | _ => executeNonStr v

/-- `CalculatorTool.execute` at the keyword-call boundary: binding `**kwargs`
against `def execute(self, expression)` raises `TypeError` unless the keywords
are exactly `expression`. -/
def calcExecuteKw : PyTool := fun kvs =>
  if kvs.all (fun p => p.1 = "expression") then
    match objGet kvs "expression" with
    | some v => .ok (executeVal v)
    | none => .error .typeErr
  else .error .typeErr

/-- The tool list the program builds in `__main__`. -/
def calcTools : List (String × PyTool) := [("calculator", calcExecuteKw)]

/-- `tool_name and tool_name in self.tools` followed by `self.tools[tool_name]`:
falsy values short-circuit to the no-tool branch; truthy lists/dicts are
unhashable and raise `TypeError`; truthy non-string hashables are simply not
dict keys; a truthy string selects the tool it names, if any. -/
def truthyAndMem (v : JVal) (tools : List (String × PyTool)) :
    Except PyExn (Option (String × PyTool)) :=
  if truthy v then
    match v with
    | .jarr _ => .error .typeErr
    | .jobj _ => .error .typeErr
    | .jstr s =>
      match toolLookup s tools with
      | some t => .ok (some (s, t))
      | none => .ok none
    | _ => .ok none
  else .ok none

/-- `tool.execute(**tool_input)`: unpacking a non-mapping raises `TypeError`. -/
def callKw (tool : PyTool) (toolInput : JVal) : Except PyExn String :=
  match toolInput with
  | .jobj kvs => tool kvs
  | _ => .error .typeErr

/-- The user message `run` appends. -/
def userMsg (q : String) : Message := ⟨"user", q, []⟩

/-- `print(f"\n--- User: \x7buser_query\x7d ---")`. -/
def userLine (q : String) : String := "\n--- User: " ++ q ++ " ---"

/-- `print(f"[Agent Response]: \x7b...\x7d")`. -/
def respLine (r : String) : String := "[Agent Response]: " ++ r

/-- `print(f"[Agent Thought]: \x7bdecision.get('thought')\x7d")`. -/
def thoughtLine (v : JVal) : String := "[Agent Thought]: " ++ pyStr v

/-- `print(f"[Agent Action]: Calling tool '\x7btool_name\x7d' with \x7btool_input\x7d")`. -/
def actionLine (name : String) (ti : JVal) : String :=
  "[Agent Action]: Calling tool '" ++ name ++ "' with " ++ pyStr ti

/-- `print(f"[Tool Output]: \x7btool_result\x7d")`. -/
def outLine (r : String) : String := "[Tool Output]: " ++ r

/-- `decision.get(k)` / `decision.get(k, default)` on a dict: an absent key
yields the default (`None` for plain `get`). -/
def jGetD (kvs : List (String × JVal)) (k : String) (d : JVal) : JVal :=
  match objGet kvs k with
  | some x => x
  | none => d

/-- Everything observable about one `Agent.run` call: the console lines printed
so far, the final state of `self.memory.messages`, and the exception escaping
`run`, if any.  (Python mutates memory in place, so messages appended before an
uncaught exception persist; the `memory` field reflects that.) -/
structure RunOut where
  trace : List String
  memory : List Message
  exn : Option PyExn
deriving Repr

/-- `Agent.run(user_query)`, faithfully by line:
append the user message; `generate`; try `json.loads`; on decode failure print
and append the raw text as the assistant message; on a non-dict decision crash
at `decision.get('thought')` (`AttributeError`, not caught — only
`json.JSONDecodeError` is); otherwise print the thought, test
`tool_name and tool_name in self.tools`, and either surface the raw text with
no further append, or execute the tool, append the tool message, `generate`
again and append the final assistant message. -/
def run (llm : List Message → Except PyExn String) (tools : List (String × PyTool))
    (mem0 : List Message) (user_query : String) : RunOut :=
  let t0 := [userLine user_query]
  let mem1 := addMessage mem0 (userMsg user_query)
  match llm (getHistory mem1) with
  | .error e => ⟨t0, mem1, some e⟩
  | .ok response_text =>
    match jsonLoads response_text with
    | none =>
      ⟨t0 ++ [respLine response_text],
        addMessage mem1 ⟨"assistant", response_text, []⟩, none⟩
    | some (.jobj kvs) =>
      let t1 := t0 ++ [thoughtLine (jGetD kvs "thought" .jnull)]
      match truthyAndMem (jGetD kvs "tool" .jnull) tools with
      | .error e => ⟨t1, mem1, some e⟩
      | .ok none => ⟨t1 ++ [respLine response_text], mem1, none⟩
      | .ok (some (name, tool)) =>
        let tool_input := jGetD kvs "tool_input" (.jobj [])
        let t2 := t1 ++ [actionLine name tool_input]
        match callKw tool tool_input with
        | .error e => ⟨t2, mem1, some e⟩
        | .ok tool_result =>
          let t3 := t2 ++ [outLine tool_result]
          let mem2 := addMessage mem1 ⟨"tool", tool_result, [("tool", name)]⟩
          match llm (getHistory mem2) with
          | .error e => ⟨t3, mem2, some e⟩
          | .ok final_response =>
            ⟨t3 ++ [respLine final_response],
              addMessage mem2 ⟨"assistant", final_response, []⟩, none⟩
    | some _ => ⟨t0, mem1, some .attrErr⟩

/-! ## Spec-side arithmetic expressions

The specification speaks of "expressions containing only allowed characters and
valid arithmetic syntax" evaluated "using standard operator precedence".  This
is formalised by an AST of standard arithmetic (`AExp`), its exact rational
value (`aeval`), and a precedence-aware renderer to the allow-list alphabet
(`render`): the strings "forming a syntactically valid arithmetic expression"
are the rendered ASTs. -/

/-- Standard arithmetic expressions: integer numerals, unary minus, and the
four binary operators of the allow-list. -/
inductive AExp where
  | lit (n : Nat)
  | neg (a : AExp)
  | add (a b : AExp)
  | sub (a b : AExp)
  | mul (a b : AExp)
  | div (a b : AExp)
deriving Repr, DecidableEq

/-- Structural size (one per node). -/
def asize : AExp → Nat
  | .lit _ => 1
  | .neg a => asize a + 1
  | .add a b => asize a + asize b + 1
  | .sub a b => asize a + asize b + 1
  | .mul a b => asize a + asize b + 1
  | .div a b => asize a + asize b + 1

/-- Exact rational value under standard precedence; `none` on division by
zero. -/
def aeval : AExp → Option ℚ
  | .lit n => some n
  | .neg a => (aeval a).map (fun x => -x)
  | .add a b =>
    match aeval a, aeval b with
    | some x, some y => some (x + y)
    | _, _ => none
  | .sub a b =>
    match aeval a, aeval b with
    | some x, some y => some (x - y)
    | _, _ => none
  | .mul a b =>
    match aeval a, aeval b with
    | some x, some y => some (x * y)
    | _, _ => none
  | .div a b =>
    match aeval a, aeval b with
    | some x, some y => if y = 0 then none else some (x / y)
    | _, _ => none

/-- Integer value of a division-free expression (`none` if any division
occurs). -/
def ieval : AExp → Option Int
  | .lit n => some n
  | .neg a => (ieval a).map (fun x => -x)
  | .add a b =>
    match ieval a, ieval b with
    | some x, some y => some (x + y)
    | _, _ => none
  | .sub a b =>
    match ieval a, ieval b with
    | some x, some y => some (x - y)
    | _, _ => none
  | .mul a b =>
    match ieval a, ieval b with
    | some x, some y => some (x * y)
    | _, _ => none
  | .div _ _ => none

/-- The corresponding Python AST. -/
def astOf : AExp → PyAst
  | .lit n => .intLit n
  | .neg a => .neg (astOf a)
  | .add a b => .add (astOf a) (astOf b)
  | .sub a b => .sub (astOf a) (astOf b)
  | .mul a b => .mul (astOf a) (astOf b)
  | .div a b => .div (astOf a) (astOf b)

/-- Precedence level of a node: additive 0, multiplicative 1, unary 2,
atomic 3. -/
def lvlOf : AExp → Nat
  | .add _ _ => 0
  | .sub _ _ => 0
  | .mul _ _ => 1
  | .div _ _ => 1
  | .neg _ => 2
  | .lit _ => 3

/-- Render to tokens with minimal parentheses under standard precedence:
a subterm is parenthesized exactly when its level is below its context's. -/
def renCore : AExp → List Tok
  | .lit n => [.int n]
  | .neg a =>
    .minus :: (if lvlOf a < 2 then .lpar :: renCore a ++ [.rpar] else renCore a)
  | .add a b =>
    renCore a ++ .plus :: (if lvlOf b < 1 then .lpar :: renCore b ++ [.rpar] else renCore b)
  | .sub a b =>
    renCore a ++ .minus :: (if lvlOf b < 1 then .lpar :: renCore b ++ [.rpar] else renCore b)
  | .mul a b =>
    (if lvlOf a < 1 then .lpar :: renCore a ++ [.rpar] else renCore a) ++
      .star :: (if lvlOf b < 2 then .lpar :: renCore b ++ [.rpar] else renCore b)
  | .div a b =>
    (if lvlOf a < 1 then .lpar :: renCore a ++ [.rpar] else renCore a) ++
      .slash :: (if lvlOf b < 2 then .lpar :: renCore b ++ [.rpar] else renCore b)

/-- Token list of `t` in expression (additive) position. -/
def renToksE (t : AExp) : List Tok := renCore t

/-- Token list of `t` in term (multiplicative) position. -/
def renToksT (t : AExp) : List Tok :=
  if lvlOf t < 1 then .lpar :: renCore t ++ [.rpar] else renCore t

/-- Token list of `t` in factor (unary) position. -/
def renToksF (t : AExp) : List Tok :=
  if lvlOf t < 2 then .lpar :: renCore t ++ [.rpar] else renCore t

/-- Characters of one token. -/
def tokStr : Tok → List Char
  | .int n => natDigs n
  | .flt _ => []
  | .plus => ['+']
  | .minus => ['-']
  | .star => ['*']
  | .slash => ['/']
  | .dstar => ['*', '*']
  | .dslash => ['/', '/']
  | .lpar => ['(']
  | .rpar => [')']

/-- Tokens joined with single spaces. -/
def tokLine : List Tok → List Char
  | [] => []
  | t :: ts => tokStr t ++ (match ts with | [] => [] | _ :: _ => ' ' :: tokLine ts)

/-- Render an arithmetic expression as a string over the allow-list. -/
def render (t : AExp) : String := String.mk (tokLine (renToksE t))

/-- Tokens the renderer can produce. -/
def goodTok : Tok → Bool
  | .int _ => true
  | .plus => true
  | .minus => true
  | .star => true
  | .slash => true
  | .lpar => true
  | .rpar => true
  | _ => false

/-! ### Spine decompositions and parser-statement predicates

`renCore` is left-recursive at the additive and multiplicative levels, while
the parser loops (`exprGo`, `termGo`) fold from the left; the spine
decompositions mediate between the two in the round-trip proof. -/

/-- Additive operators. -/
inductive AddOp where
  | aplus
  | aminus
deriving Repr, DecidableEq

/-- Multiplicative operators. -/
inductive MulOp where
  | mstar
  | mslash
deriving Repr, DecidableEq

/-- Token of an additive operator. -/
def addOpTok : AddOp → Tok
  | .aplus => .plus
  | .aminus => .minus

/-- Token of a multiplicative operator. -/
def mulOpTok : MulOp → Tok
  | .mstar => .star
  | .mslash => .slash

/-- Python AST constructor of an additive operator. -/
def pyAddOp : AddOp → PyAst → PyAst → PyAst
  | .aplus => .add
  | .aminus => .sub

/-- Python AST constructor of a multiplicative operator. -/
def pyMulOp : MulOp → PyAst → PyAst → PyAst
  | .mstar => .mul
  | .mslash => .div

/-- Left spine of the additive level: `a - b + c` becomes the head `a` with
items `[(-, b), (+, c)]`. -/
def spineE : AExp → AExp × List (AddOp × AExp)
  | .add a b => ((spineE a).1, (spineE a).2 ++ [(.aplus, b)])
  | .sub a b => ((spineE a).1, (spineE a).2 ++ [(.aminus, b)])
  | t => (t, [])

/-- Left spine of the multiplicative level. -/
def spineT : AExp → AExp × List (MulOp × AExp)
  | .mul a b => ((spineT a).1, (spineT a).2 ++ [(.mstar, b)])
  | .div a b => ((spineT a).1, (spineT a).2 ++ [(.mslash, b)])
  | t => (t, [])

/-- Tokens of one additive spine item. -/
def eItemToks (p : AddOp × AExp) : List Tok := addOpTok p.1 :: renToksT p.2

/-- Tokens of an additive spine. -/
def eItemsToks (l : List (AddOp × AExp)) : List Tok := (l.map eItemToks).flatten

/-- Tokens of one multiplicative spine item. -/
def tItemToks (p : MulOp × AExp) : List Tok := mulOpTok p.1 :: renToksF p.2

/-- Tokens of a multiplicative spine. -/
def tItemsToks (l : List (MulOp × AExp)) : List Tok := (l.map tItemToks).flatten

/-- Left fold of an additive spine over Python ASTs, as `exprGo` builds it. -/
def eFold (acc : PyAst) (l : List (AddOp × AExp)) : PyAst :=
  l.foldl (fun p it => pyAddOp it.1 p (astOf it.2)) acc

/-- Left fold of a multiplicative spine, as `termGo` builds it. -/
def tFold (acc : PyAst) (l : List (MulOp × AExp)) : PyAst :=
  l.foldl (fun p it => pyMulOp it.1 p (astOf it.2)) acc

/-- The head of the remaining input avoids the given tokens. -/
def hdNotIn (ts : List Tok) (bad : List Tok) : Bool :=
  match ts.head? with
  | none => true
  | some t => ¬bad.contains t

/-- Rest-input condition under which a factor parse stops cleanly. -/
def factStop (ts : List Tok) : Bool := hdNotIn ts [.dstar]

/-- Rest-input condition under which a term parse stops cleanly. -/
def termStop (ts : List Tok) : Bool := hdNotIn ts [.dstar, .star, .slash, .dslash]

/-- Rest-input condition under which an expression parse stops cleanly. -/
def exprStop (ts : List Tok) : Bool :=
  hdNotIn ts [.dstar, .star, .slash, .dslash, .plus, .minus]

/-- The parser, in expression mode, consumes exactly the rendering of `t`. -/
def EStat (t : AExp) : Prop :=
  ∀ f rest, exprStop rest = true → 5 * (renToksE t).length + 7 ≤ f →
    parseM f .expr (renToksE t ++ rest) = some (astOf t, rest)

/-- The parser, in term mode, consumes exactly the term-position rendering. -/
def TStat (t : AExp) : Prop :=
  ∀ f rest, termStop rest = true → 5 * (renToksT t).length + 6 ≤ f →
    parseM f .term (renToksT t ++ rest) = some (astOf t, rest)

/-- The parser, in factor mode, consumes exactly the factor-position
rendering. -/
def FStat (t : AExp) : Prop :=
  ∀ f rest, factStop rest = true → 5 * (renToksF t).length + 5 ≤ f →
    parseM f .fact (renToksF t ++ rest) = some (astOf t, rest)

/-! ### Decimal denotation, for "the exact decimal string of the result" -/

/-- Value of an unsigned decimal numeral (digits, optionally a point and more
digits); `none` if the string is not of that shape. -/
def decValPos (cs : List Char) : Option ℚ :=
  let ds := cs.takeWhile Char.isDigit
  let r := cs.dropWhile Char.isDigit
  if ds.isEmpty then none
  else
    match r with
    | [] => some (digitsVal ds : ℚ)
    | '.' :: fs =>
      if fs.isEmpty = false ∧ fs.all Char.isDigit then
        some ((digitsVal ds : ℚ) + (digitsVal fs : ℚ) / ((10 : ℚ) ^ fs.length))
      else none
    | _ => none

/-- The exact rational a decimal string denotes, if it is one. -/
def decVal (s : String) : Option ℚ :=
  match s.data with
  | '-' :: cs => (decValPos cs).map (fun q => -q)
  | cs => decValPos cs

/-! ### Predicates for the agent-level claims -/

/-- The decision object selects no tool: its `tool` entry is absent, `null`,
an empty string, a string naming no tool in the mapping, a number, a boolean,
or an empty container.  (A truthy list/dict is excluded: probing dict
membership with an unhashable key raises `TypeError`.) -/
def noToolSelected (kvs : List (String × JVal)) (tools : List (String × PyTool)) :
    Bool :=
  match objGet kvs "tool" with
  | none => true
  | some .jnull => true
  | some (.jstr s) => s == "" || (toolLookup s tools).isNone
  | some (.jarr l) => l.isEmpty
  | some (.jobj l) => l.isEmpty
  | some _ => true

/-- A decision object the calculator agent can act on without an uncaught
exception: either it selects no tool, or it selects one and its `tool_input`
is an object binding exactly the `expression` keyword. -/
def calcDecisionOk (kvs : List (String × JVal)) : Bool :=
  match objGet kvs "tool" with
  | some (.jstr s) =>
    if s == "" then true
    else if (toolLookup s calcTools).isSome then
      match objGet kvs "tool_input" with
      | some (.jobj ikvs) =>
        ikvs.all (fun p => p.1 = "expression") && (objGet ikvs "expression").isSome
      | _ => false
    else true
  | some (.jarr l) => l.isEmpty
  | some (.jobj l) => l.isEmpty
  | none => true
  | some .jnull => true
  | some (.jbool _) => true
  | some (.jint _) => true
  | some (.jfloat _) => true
  | some .jnan => true
  | some (.jinf _) => true

/-- A model response the calculator agent survives: not JSON at all, or a JSON
object whose decision is benign. -/
def responseOk (r : String) : Bool :=
  match jsonLoads r with
  | none => true
  | some (.jobj kvs) => calcDecisionOk kvs
  | some _ => false

/-! ## Lemmas: decimal digits -/

theorem digitsVal_append_singleton (xs : List Char) (c : Char) :
    digitsVal (xs ++ [c]) = 10 * digitsVal xs + digitVal c := by
  simp [digitsVal, List.foldl_append]

theorem digitChar_spec : ∀ k, k < 10 →
    (Char.ofNat (48 + k)).isDigit = true ∧ digitVal (Char.ofNat (48 + k)) = k ∧
      allowedChars.contains (Char.ofNat (48 + k)) = true ∧
      (Char.ofNat (48 + k)) ≠ ' ' ∧ (k ≠ 0 → (Char.ofNat (48 + k)) ≠ '0') ∧
      (Char.ofNat (48 + k)) ≠ '-' := by
  decide

theorem natDigsF_spec : ∀ f n, n < f →
    natDigsF f n ≠ [] ∧ (∀ c ∈ natDigsF f n, ∃ k, k < 10 ∧ c = Char.ofNat (48 + k)) ∧
      digitsVal (natDigsF f n) = n ∧ (0 < n → (natDigsF f n).head? ≠ some '0') := by
  intro f
  induction f with
  | zero => omega
  | succ f ih =>
    intro n hn
    by_cases h10 : n < 10
    · have hd := digitChar_spec n h10
      refine ⟨by simp [natDigsF, h10], ?_, ?_, ?_⟩
      · intro c hc
        simp [natDigsF, h10] at hc
        exact ⟨n, h10, hc⟩
      · simp [natDigsF, h10, digitsVal, hd.2.1]
      · intro hpos
        simp [natDigsF, h10]
        exact hd.2.2.2.2.1 (by omega)
    · have hdiv : n / 10 < f := by
        have := Nat.div_lt_self (by omega : 0 < n) (by omega : 1 < 10)
        omega
      obtain ⟨hne, hmem, hval, hhd⟩ := ih (n / 10) hdiv
      have hmod := digitChar_spec (n % 10) (Nat.mod_lt _ (by omega))
      have heq : natDigsF (f + 1) n =
          natDigsF f (n / 10) ++ [Char.ofNat (48 + n % 10)] := by
        simp [natDigsF, h10]
      refine ⟨by simp [heq], ?_, ?_, ?_⟩
      · intro c hc
        rw [heq] at hc
        rcases List.mem_append.mp hc with h | h
        · exact hmem c h
        · simp at h
          exact ⟨n % 10, Nat.mod_lt _ (by omega), h⟩
      · rw [heq, digitsVal_append_singleton, hval, hmod.2.1]
        omega
      · intro _
        rw [heq]
        rcases hl : natDigsF f (n / 10) with _ | ⟨c0, cs0⟩
        · exact absurd hl hne
        · have := hhd (by omega)
          rw [hl] at this
          simpa using this

theorem natDigs_ne_nil (n : Nat) : natDigs n ≠ [] :=
  (natDigsF_spec (n + 1) n (by omega)).1

theorem natDigs_mem (n : Nat) : ∀ c ∈ natDigs n, ∃ k, k < 10 ∧ c = Char.ofNat (48 + k) :=
  (natDigsF_spec (n + 1) n (by omega)).2.1

theorem natDigs_val (n : Nat) : digitsVal (natDigs n) = n :=
  (natDigsF_spec (n + 1) n (by omega)).2.2.1

theorem natDigs_isDigit (n : Nat) : ∀ c ∈ natDigs n, c.isDigit = true := by
  intro c hc
  obtain ⟨k, hk, rfl⟩ := natDigs_mem n c hc
  exact (digitChar_spec k hk).1

theorem natDigs_allowed (n : Nat) : ∀ c ∈ natDigs n, allowedChars.contains c = true := by
  intro c hc
  obtain ⟨k, hk, rfl⟩ := natDigs_mem n c hc
  exact (digitChar_spec k hk).2.2.1

theorem natDigs_not_space (n : Nat) : ∀ c ∈ natDigs n, c ≠ ' ' := by
  intro c hc
  obtain ⟨k, hk, rfl⟩ := natDigs_mem n c hc
  exact (digitChar_spec k hk).2.2.2.1

theorem leadZeroBad_natDigs (n : Nat) : leadZeroBad (natDigs n) = false := by
  by_cases h10 : n < 10
  · have heq : natDigs n = [Char.ofNat (48 + n)] := by
      simp [natDigs, natDigsF, h10]
    by_cases h0 : n = 0
    · subst h0
      simp [heq, leadZeroBad]
    · have := (digitChar_spec n h10).2.2.2.2.1 h0
      simp [heq, leadZeroBad, this]
  · have hhd := (natDigsF_spec (n + 1) n (by omega)).2.2.2 (by omega)
    rcases hl : natDigs n with _ | ⟨c0, cs0⟩
    · exact absurd hl (natDigs_ne_nil n)
    · unfold natDigs at hl
      rw [hl] at hhd
      simp at hhd
      simp [leadZeroBad, hl, hhd]

/-! ## Lemmas: takeWhile / dropWhile over appended runs -/

theorem takeWhile_append_all {p : Char → Bool} :
    ∀ l l2 : List Char, (∀ c ∈ l, p c = true) →
      (match l2.head? with | some c => p c = false | none => True) →
      (l ++ l2).takeWhile p = l := by
  intro l l2 hall hhd
  induction l with
  | nil =>
    cases l2 with
    | nil => rfl
    | cons c cs => simp at hhd; simp [List.takeWhile, hhd]
  | cons c cs ih =>
    have hc := hall c (by simp)
    simp only [List.cons_append, List.takeWhile, hc]
    simp [ih (fun x hx => hall x (by simp [hx]))]

theorem dropWhile_append_all {p : Char → Bool} :
    ∀ l l2 : List Char, (∀ c ∈ l, p c = true) →
      (match l2.head? with | some c => p c = false | none => True) →
      (l ++ l2).dropWhile p = l2 := by
  intro l l2 hall hhd
  induction l with
  | nil =>
    cases l2 with
    | nil => rfl
    | cons c cs => simp at hhd; simp [List.dropWhile, hhd]
  | cons c cs ih =>
    have hc := hall c (by simp)
    simp only [List.cons_append, List.dropWhile, hc]
    exact ih (fun x hx => hall x (by simp [hx]))

/-! ## Lemmas: tokenizer round-trip on rendered token lines -/

theorem tokF_space (f : Nat) (l : List Char) : tokF (f + 1) (' ' :: l) = tokF f l := by
  simp [tokF]

theorem tokF_digits_step (n : Nat) (l2 : List Char)
    (hl2 : match l2.head? with
      | some c => c.isDigit = false ∧ c ≠ '.'
      | none => True)
    (f : Nat) :
    tokF (f + 1) (natDigs n ++ l2) = (tokF f l2).map (fun ts => Tok.int n :: ts) := by
  rcases hl : natDigs n with _ | ⟨c, cs⟩
  · exact absurd hl (natDigs_ne_nil n)
  · have hdig : ∀ x ∈ natDigs n, x.isDigit = true := natDigs_isDigit n
    have hc : c.isDigit = true := hdig c (by rw [hl]; simp)
    have hcs : c ≠ ' ' := natDigs_not_space n c (by rw [hl]; simp)
    have hl2d : match l2.head? with | some x => x.isDigit = false | none => True := by
      cases l2 with
      | nil => trivial
      | cons x xs => exact hl2.1
    have htake : ((c :: cs) ++ l2).takeWhile Char.isDigit = c :: cs := by
      rw [← hl]
      exact takeWhile_append_all _ _ hdig hl2d
    have hdrop : ((c :: cs) ++ l2).dropWhile Char.isDigit = l2 := by
      rw [← hl]
      exact dropWhile_append_all _ _ hdig hl2d
    have hlz : leadZeroBad (c :: cs) = false := hl ▸ leadZeroBad_natDigs n
    have hval : digitsVal (c :: cs) = n := hl ▸ natDigs_val n
    show tokF (f + 1) (c :: (cs ++ l2)) = _
    rw [tokF.eq_def]
    simp only [if_neg hcs, hc, if_pos, show (c :: (cs ++ l2)) = (c :: cs) ++ l2 from rfl,
      htake, hdrop]
    cases l2 with
    | nil => simp [hlz, hval]
    | cons x xs =>
      have hx : x ≠ '.' := hl2.2
      split
      · next rest2 heq =>
        exact absurd (by injection heq) hx
      · simp [hlz, hval]

theorem tokF_tokLine : ∀ ts : List Tok, (∀ t ∈ ts, goodTok t = true) →
    ∀ f, (tokLine ts).length < f → tokF f (tokLine ts) = some ts := by
  intro ts
  induction ts with
  | nil =>
    intro _ f _
    cases f <;> rfl
  | cons t ts ih =>
    intro hgood f hf
    have hgt := hgood t (by simp)
    have hgts : ∀ x ∈ ts, goodTok x = true := fun x hx => hgood x (by simp [hx])
    cases t with
    | flt q => simp [goodTok] at hgt
    | dstar => simp [goodTok] at hgt
    | dslash => simp [goodTok] at hgt
    | int n =>
      have hnd : 0 < (natDigs n).length := List.length_pos.mpr (natDigs_ne_nil n)
      cases ts with
      | nil =>
        cases f with
        | zero => omega
        | succ f' =>
          show tokF (f' + 1) (natDigs n ++ []) = some [Tok.int n]
          rw [tokF_digits_step n [] trivial f']
          have h0 : tokF f' [] = some [] := by cases f' <;> rfl
          rw [h0]
          rfl
      | cons t2 ts2 =>
        have hlf : (natDigs n ++ (' ' :: tokLine (t2 :: ts2))).length
            = (natDigs n).length + ((tokLine (t2 :: ts2)).length + 1) := by
          rw [List.length_append]
          rfl
        have hfe : (tokLine (Tok.int n :: t2 :: ts2)).length
            = (natDigs n ++ (' ' :: tokLine (t2 :: ts2))).length := rfl
        cases f with
        | zero => omega
        | succ f' =>
          show tokF (f' + 1) (natDigs n ++ (' ' :: tokLine (t2 :: ts2)))
            = some (Tok.int n :: t2 :: ts2)
          rw [tokF_digits_step n (' ' :: tokLine (t2 :: ts2)) ⟨by decide, by decide⟩ f']
          cases f' with
          | zero => omega
          | succ f'' =>
            rw [tokF_space, ih hgts f'' (by omega)]
            rfl
    | plus =>
      cases ts with
      | nil =>
        cases f with
        | zero => omega
        | succ f' =>
          show tokF (f' + 1) ['+'] = some [Tok.plus]
          have h0 : tokF f' [] = some [] := by cases f' <;> rfl
          simp [tokF, h0]
      | cons t2 ts2 =>
        have hlen : (tokLine (Tok.plus :: t2 :: ts2)).length
            = (tokLine (t2 :: ts2)).length + 2 := rfl
        cases f with
        | zero => omega
        | succ f' =>
          cases f' with
          | zero => omega
          | succ f'' =>
            have hih := ih hgts f'' (by omega)
            show tokF (f'' + 1 + 1) ('+' :: ' ' :: tokLine (t2 :: ts2))
              = some (Tok.plus :: t2 :: ts2)
            simp [tokF, hih]
    | minus =>
      cases ts with
      | nil =>
        cases f with
        | zero => omega
        | succ f' =>
          show tokF (f' + 1) ['-'] = some [Tok.minus]
          have h0 : tokF f' [] = some [] := by cases f' <;> rfl
          simp [tokF, h0]
      | cons t2 ts2 =>
        have hlen : (tokLine (Tok.minus :: t2 :: ts2)).length
            = (tokLine (t2 :: ts2)).length + 2 := rfl
        cases f with
        | zero => omega
        | succ f' =>
          cases f' with
          | zero => omega
          | succ f'' =>
            have hih := ih hgts f'' (by omega)
            show tokF (f'' + 1 + 1) ('-' :: ' ' :: tokLine (t2 :: ts2))
              = some (Tok.minus :: t2 :: ts2)
            simp [tokF, hih]
    | star =>
      cases ts with
      | nil =>
        cases f with
        | zero => omega
        | succ f' =>
          show tokF (f' + 1) ['*'] = some [Tok.star]
          have h0 : tokF f' [] = some [] := by cases f' <;> rfl
          simp [tokF, h0]
      | cons t2 ts2 =>
        have hlen : (tokLine (Tok.star :: t2 :: ts2)).length
            = (tokLine (t2 :: ts2)).length + 2 := rfl
        cases f with
        | zero => omega
        | succ f' =>
          cases f' with
          | zero => omega
          | succ f'' =>
            have hih := ih hgts f'' (by omega)
            show tokF (f'' + 1 + 1) ('*' :: ' ' :: tokLine (t2 :: ts2))
              = some (Tok.star :: t2 :: ts2)
            simp [tokF, hih]
    | slash =>
      cases ts with
      | nil =>
        cases f with
        | zero => omega
        | succ f' =>
          show tokF (f' + 1) ['/'] = some [Tok.slash]
          have h0 : tokF f' [] = some [] := by cases f' <;> rfl
          simp [tokF, h0]
      | cons t2 ts2 =>
        have hlen : (tokLine (Tok.slash :: t2 :: ts2)).length
            = (tokLine (t2 :: ts2)).length + 2 := rfl
        cases f with
        | zero => omega
        | succ f' =>
          cases f' with
          | zero => omega
          | succ f'' =>
            have hih := ih hgts f'' (by omega)
            show tokF (f'' + 1 + 1) ('/' :: ' ' :: tokLine (t2 :: ts2))
              = some (Tok.slash :: t2 :: ts2)
            simp [tokF, hih]
    | lpar =>
      cases ts with
      | nil =>
        cases f with
        | zero => omega
        | succ f' =>
          show tokF (f' + 1) ['('] = some [Tok.lpar]
          have h0 : tokF f' [] = some [] := by cases f' <;> rfl
          simp [tokF, h0]
      | cons t2 ts2 =>
        have hlen : (tokLine (Tok.lpar :: t2 :: ts2)).length
            = (tokLine (t2 :: ts2)).length + 2 := rfl
        cases f with
        | zero => omega
        | succ f' =>
          cases f' with
          | zero => omega
          | succ f'' =>
            have hih := ih hgts f'' (by omega)
            show tokF (f'' + 1 + 1) ('(' :: ' ' :: tokLine (t2 :: ts2))
              = some (Tok.lpar :: t2 :: ts2)
            simp [tokF, hih]
    | rpar =>
      cases ts with
      | nil =>
        cases f with
        | zero => omega
        | succ f' =>
          show tokF (f' + 1) [')'] = some [Tok.rpar]
          have h0 : tokF f' [] = some [] := by cases f' <;> rfl
          simp [tokF, h0]
      | cons t2 ts2 =>
        have hlen : (tokLine (Tok.rpar :: t2 :: ts2)).length
            = (tokLine (t2 :: ts2)).length + 2 := rfl
        cases f with
        | zero => omega
        | succ f' =>
          cases f' with
          | zero => omega
          | succ f'' =>
            have hih := ih hgts f'' (by omega)
            show tokF (f'' + 1 + 1) (')' :: ' ' :: tokLine (t2 :: ts2))
              = some (Tok.rpar :: t2 :: ts2)
            simp [tokF, hih]

/-- Tokenizing a rendered token line recovers the tokens. -/
theorem pyTok_tokLine (ts : List Tok) (h : ∀ t ∈ ts, goodTok t = true) :
    pyTok (String.mk (tokLine ts)) = some ts := by
  show tokF ((tokLine ts).length + 1) (tokLine ts) = some ts
  exact tokF_tokLine ts h _ (by omega)

/-! ## Lemmas: parser single steps (definitional) -/

theorem parseM_expr (f : Nat) (ts : List Tok) :
    parseM (f + 1) .expr ts =
      match parseM f .term ts with
      | some (a, ts1) => parseM f (.exprGo a) ts1
      | none => none := rfl

theorem parseM_exprGo_plus (f : Nat) (acc : PyAst) (ts2 : List Tok) :
    parseM (f + 1) (.exprGo acc) (.plus :: ts2) =
      match parseM f .term ts2 with
      | some (b, ts3) => parseM f (.exprGo (.add acc b)) ts3
      | none => none := rfl

theorem parseM_exprGo_minus (f : Nat) (acc : PyAst) (ts2 : List Tok) :
    parseM (f + 1) (.exprGo acc) (.minus :: ts2) =
      match parseM f .term ts2 with
      | some (b, ts3) => parseM f (.exprGo (.sub acc b)) ts3
      | none => none := rfl

theorem parseM_term (f : Nat) (ts : List Tok) :
    parseM (f + 1) .term ts =
      match parseM f .fact ts with
      | some (a, ts1) => parseM f (.termGo a) ts1
      | none => none := rfl

theorem parseM_termGo_star (f : Nat) (acc : PyAst) (ts2 : List Tok) :
    parseM (f + 1) (.termGo acc) (.star :: ts2) =
      match parseM f .fact ts2 with
      | some (b, ts3) => parseM f (.termGo (.mul acc b)) ts3
      | none => none := rfl

theorem parseM_termGo_slash (f : Nat) (acc : PyAst) (ts2 : List Tok) :
    parseM (f + 1) (.termGo acc) (.slash :: ts2) =
      match parseM f .fact ts2 with
      | some (b, ts3) => parseM f (.termGo (.div acc b)) ts3
      | none => none := rfl

theorem parseM_fact_minus (f : Nat) (ts2 : List Tok) :
    parseM (f + 1) .fact (.minus :: ts2) =
      (parseM f .fact ts2).map (fun p => (.neg p.1, p.2)) := rfl

theorem parseM_powr (f : Nat) (ts : List Tok) :
    parseM (f + 1) .powr ts =
      match parseM f .atom ts with
      | some (a, ts1) =>
        match ts1 with
        | .dstar :: ts2 => (parseM f .fact ts2).map (fun p => (.pow a p.1, p.2))
        | _ => some (a, ts1)
      | none => none := rfl

theorem parseM_atom_int (f : Nat) (n : Nat) (ts2 : List Tok) :
    parseM (f + 1) .atom (.int n :: ts2) = some (.intLit n, ts2) := rfl

theorem parseM_atom_lpar (f : Nat) (ts2 : List Tok) :
    parseM (f + 1) .atom (.lpar :: ts2) =
      match parseM f .expr ts2 with
      | some (a, .rpar :: ts3) => some (a, ts3)
      | _ => none := rfl

/-! ## Lemmas: stop conditions -/

theorem termStop_of_exprStop {ts : List Tok} (h : exprStop ts = true) :
    termStop ts = true := by
  cases ts with
  | nil => rfl
  | cons t l => cases t <;> simp_all [exprStop, termStop, hdNotIn]

theorem factStop_of_termStop {ts : List Tok} (h : termStop ts = true) :
    factStop ts = true := by
  cases ts with
  | nil => rfl
  | cons t l => cases t <;> simp_all [termStop, factStop, hdNotIn]

theorem termStop_addOp (op : AddOp) (l : List Tok) :
    termStop (addOpTok op :: l) = true := by
  cases op <;> rfl

theorem factStop_mulOp (op : MulOp) (l : List Tok) :
    factStop (mulOpTok op :: l) = true := by
  cases op <;> rfl

theorem termStop_eItems (items : List (AddOp × AExp)) (rest : List Tok)
    (h : exprStop rest = true) : termStop (eItemsToks items ++ rest) = true := by
  cases items with
  | nil =>
    show termStop (([] : List (List Tok)).flatten ++ rest) = true
    simpa using termStop_of_exprStop h
  | cons p l =>
    show termStop ((eItemToks p :: (l.map eItemToks)).flatten ++ rest) = true
    simp only [List.flatten_cons, eItemToks, List.cons_append, List.append_assoc]
    exact termStop_addOp p.1 _

theorem factStop_tItems (items : List (MulOp × AExp)) (rest : List Tok)
    (h : termStop rest = true) : factStop (tItemsToks items ++ rest) = true := by
  cases items with
  | nil =>
    show factStop (([] : List (List Tok)).flatten ++ rest) = true
    simpa using factStop_of_termStop h
  | cons p l =>
    show factStop ((tItemToks p :: (l.map tItemToks)).flatten ++ rest) = true
    simp only [List.flatten_cons, tItemToks, List.cons_append, List.append_assoc]
    exact factStop_mulOp p.1 _

/-! ## Lemmas: spine decompositions -/

theorem spineE_head_size (t : AExp) : asize (spineE t).1 ≤ asize t := by
  induction t with
  | lit n => simp [spineE, asize]
  | neg a ih => simp [spineE, asize]
  | add a b iha ihb => simp only [spineE, asize]; omega
  | sub a b iha ihb => simp only [spineE, asize]; omega
  | mul a b iha ihb => simp [spineE, asize]
  | div a b iha ihb => simp [spineE, asize]

theorem spineE_items_size (t : AExp) : ∀ p ∈ (spineE t).2, asize p.2 ≤ asize t := by
  induction t with
  | lit n => simp [spineE]
  | neg a ih => simp [spineE]
  | add a b iha ihb =>
    intro p hp
    simp only [spineE, List.mem_append, List.mem_singleton] at hp
    rcases hp with hp | rfl
    · have := iha p hp
      simp only [asize]
      omega
    · simp only [asize]
      omega
  | sub a b iha ihb =>
    intro p hp
    simp only [spineE, List.mem_append, List.mem_singleton] at hp
    rcases hp with hp | rfl
    · have := iha p hp
      simp only [asize]
      omega
    · simp only [asize]
      omega
  | mul a b iha ihb => simp [spineE]
  | div a b iha ihb => simp [spineE]

theorem spineT_head_size (t : AExp) : asize (spineT t).1 ≤ asize t := by
  induction t with
  | lit n => simp [spineT, asize]
  | neg a ih => simp [spineT, asize]
  | add a b iha ihb => simp [spineT, asize]
  | sub a b iha ihb => simp [spineT, asize]
  | mul a b iha ihb => simp only [spineT, asize]; omega
  | div a b iha ihb => simp only [spineT, asize]; omega

theorem spineT_items_size (t : AExp) : ∀ p ∈ (spineT t).2, asize p.2 ≤ asize t := by
  induction t with
  | lit n => simp [spineT]
  | neg a ih => simp [spineT]
  | add a b iha ihb => simp [spineT]
  | sub a b iha ihb => simp [spineT]
  | mul a b iha ihb =>
    intro p hp
    simp only [spineT, List.mem_append, List.mem_singleton] at hp
    rcases hp with hp | rfl
    · have := iha p hp
      simp only [asize]
      omega
    · simp only [asize]
      omega
  | div a b iha ihb =>
    intro p hp
    simp only [spineT, List.mem_append, List.mem_singleton] at hp
    rcases hp with hp | rfl
    · have := iha p hp
      simp only [asize]
      omega
    · simp only [asize]
      omega

theorem renToksT_eq_renToksF {t : AExp} (h : lvlOf t ≠ 1) : renToksT t = renToksF t := by
  cases t <;> simp_all [lvlOf, renToksT, renToksF]

theorem spineE_base {t : AExp} (h : lvlOf t ≠ 0) : spineE t = (t, []) := by
  cases t <;> simp_all [lvlOf, spineE]

theorem spineT_base {t : AExp} (h : lvlOf t ≠ 1) : spineT t = (t, []) := by
  cases t <;> simp_all [lvlOf, spineT]

theorem renToksE_eq_renToksT {t : AExp} (h : lvlOf t ≠ 0) : renToksE t = renToksT t := by
  cases t <;> simp_all [lvlOf, renToksE, renToksT]

theorem eItemsToks_append (l1 l2 : List (AddOp × AExp)) :
    eItemsToks (l1 ++ l2) = eItemsToks l1 ++ eItemsToks l2 := by
  simp [eItemsToks]

theorem tItemsToks_append (l1 l2 : List (MulOp × AExp)) :
    tItemsToks (l1 ++ l2) = tItemsToks l1 ++ tItemsToks l2 := by
  simp [tItemsToks]

theorem renToksE_decomp (t : AExp) :
    renToksE t = renToksT (spineE t).1 ++ eItemsToks (spineE t).2 := by
  induction t with
  | lit n => simp [spineE, renToksE_eq_renToksT (t := .lit n) (by simp [lvlOf]), eItemsToks]
  | neg a ih => simp [spineE, renToksE_eq_renToksT (t := .neg a) (by simp [lvlOf]), eItemsToks]
  | mul a b iha ihb =>
    simp [spineE, renToksE_eq_renToksT (t := .mul a b) (by simp [lvlOf]), eItemsToks]
  | div a b iha ihb =>
    simp [spineE, renToksE_eq_renToksT (t := .div a b) (by simp [lvlOf]), eItemsToks]
  | add a b iha ihb =>
    have hl : renToksE (.add a b) = renToksE a ++ .plus :: renToksT b := rfl
    rw [hl, iha]
    simp only [spineE, eItemsToks_append, List.append_assoc]
    have : eItemsToks [(.aplus, b)] = .plus :: renToksT b := by
      simp [eItemsToks, eItemToks, addOpTok]
    rw [this]
  | sub a b iha ihb =>
    have hl : renToksE (.sub a b) = renToksE a ++ .minus :: renToksT b := rfl
    rw [hl, iha]
    simp only [spineE, eItemsToks_append, List.append_assoc]
    have : eItemsToks [(.aminus, b)] = .minus :: renToksT b := by
      simp [eItemsToks, eItemToks, addOpTok]
    rw [this]

theorem renToksT_decomp (t : AExp) (h : 1 ≤ lvlOf t) :
    renToksT t = renToksF (spineT t).1 ++ tItemsToks (spineT t).2 := by
  induction t with
  | lit n => simp [spineT, renToksT_eq_renToksF (t := .lit n) (by simp [lvlOf]), tItemsToks]
  | neg a ih => simp [spineT, renToksT_eq_renToksF (t := .neg a) (by simp [lvlOf]), tItemsToks]
  | add a b iha ihb => simp [lvlOf] at h
  | sub a b iha ihb => simp [lvlOf] at h
  | mul a b iha ihb =>
    have hl : renToksT (.mul a b) = renToksT a ++ .star :: renToksF b := rfl
    rw [hl]
    by_cases ha : lvlOf a = 1
    · rw [iha (by omega)]
      simp only [spineT, tItemsToks_append, List.append_assoc]
      have : tItemsToks [(.mstar, b)] = .star :: renToksF b := by
        simp [tItemsToks, tItemToks, mulOpTok]
      rw [this]
    · rw [renToksT_eq_renToksF ha]
      simp only [spineT, spineT_base ha, tItemsToks_append, List.append_assoc]
      simp [tItemsToks, tItemToks, mulOpTok]
  | div a b iha ihb =>
    have hl : renToksT (.div a b) = renToksT a ++ .slash :: renToksF b := rfl
    rw [hl]
    by_cases ha : lvlOf a = 1
    · rw [iha (by omega)]
      simp only [spineT, tItemsToks_append, List.append_assoc]
      have : tItemsToks [(.mslash, b)] = .slash :: renToksF b := by
        simp [tItemsToks, tItemToks, mulOpTok]
      rw [this]
    · rw [renToksT_eq_renToksF ha]
      simp only [spineT, spineT_base ha, tItemsToks_append, List.append_assoc]
      simp [tItemsToks, tItemToks, mulOpTok]

theorem eFold_spine (t : AExp) :
    eFold (astOf (spineE t).1) (spineE t).2 = astOf t := by
  induction t with
  | lit n => rfl
  | neg a ih => rfl
  | mul a b iha ihb => rfl
  | div a b iha ihb => rfl
  | add a b iha ihb =>
    simp only [spineE, eFold, List.foldl_append] at *
    rw [iha]
    rfl
  | sub a b iha ihb =>
    simp only [spineE, eFold, List.foldl_append] at *
    rw [iha]
    rfl

theorem tFold_spine (t : AExp) :
    tFold (astOf (spineT t).1) (spineT t).2 = astOf t := by
  induction t with
  | lit n => rfl
  | neg a ih => rfl
  | add a b iha ihb => rfl
  | sub a b iha ihb => rfl
  | mul a b iha ihb =>
    simp only [spineT, tFold, List.foldl_append] at *
    rw [iha]
    rfl
  | div a b iha ihb =>
    simp only [spineT, tFold, List.foldl_append] at *
    rw [iha]
    rfl

/-! ## Lemmas: the parser loops consume spines -/

theorem exprGo_stop (f : Nat) (acc : PyAst) (rest : List Tok)
    (h : exprStop rest = true) :
    parseM (f + 1) (.exprGo acc) rest = some (acc, rest) := by
  cases rest with
  | nil => rfl
  | cons tk l => cases tk <;> simp_all [exprStop, hdNotIn] <;> rfl

theorem termGo_stop (f : Nat) (acc : PyAst) (rest : List Tok)
    (h : termStop rest = true) :
    parseM (f + 1) (.termGo acc) rest = some (acc, rest) := by
  cases rest with
  | nil => rfl
  | cons tk l => cases tk <;> simp_all [termStop, hdNotIn] <;> rfl

theorem exprGoLem : ∀ (items : List (AddOp × AExp)), (∀ p ∈ items, TStat p.2) →
    ∀ acc f rest, exprStop rest = true → 5 * (eItemsToks items).length + 6 ≤ f →
      parseM f (.exprGo acc) (eItemsToks items ++ rest) = some (eFold acc items, rest) := by
  intro items
  induction items with
  | nil =>
    intro _ acc f rest hstop hfuel
    obtain ⟨f', rfl⟩ : ∃ f', f = f' + 1 := ⟨f - 1, by omega⟩
    show parseM (f' + 1) (.exprGo acc) (eItemsToks [] ++ rest) = some (acc, rest)
    have he : eItemsToks [] = [] := rfl
    rw [he, List.nil_append]
    exact exprGo_stop f' acc rest hstop
  | cons p items ihi =>
    obtain ⟨op, x⟩ := p
    intro hT acc f rest hstop hfuel
    have hTx : TStat x := hT (op, x) (by simp)
    have hTr : ∀ q ∈ items, TStat q.2 := fun q hq => hT q (by simp [hq])
    have hitems : eItemsToks ((op, x) :: items) =
        addOpTok op :: (renToksT x ++ eItemsToks items) := by
      simp [eItemsToks, eItemToks]
    have hlen : (eItemsToks ((op, x) :: items)).length =
        1 + (renToksT x).length + (eItemsToks items).length := by
      rw [hitems]
      simp
      omega
    obtain ⟨f', rfl⟩ : ∃ f', f = f' + 1 := ⟨f - 1, by omega⟩
    rw [hitems, List.cons_append, List.append_assoc]
    have hstop2 : termStop (eItemsToks items ++ rest) = true := termStop_eItems items rest hstop
    have hterm := hTx f' (eItemsToks items ++ rest) hstop2 (by omega)
    have hrec := ihi hTr
    cases op with
    | aplus =>
      rw [show addOpTok .aplus = Tok.plus from rfl, parseM_exprGo_plus, hterm]
      show parseM f' (.exprGo (.add acc (astOf x))) (eItemsToks items ++ rest) = _
      rw [hrec (.add acc (astOf x)) f' rest hstop (by omega)]
      rfl
    | aminus =>
      rw [show addOpTok .aminus = Tok.minus from rfl, parseM_exprGo_minus, hterm]
      show parseM f' (.exprGo (.sub acc (astOf x))) (eItemsToks items ++ rest) = _
      rw [hrec (.sub acc (astOf x)) f' rest hstop (by omega)]
      rfl

theorem termGoLem : ∀ (items : List (MulOp × AExp)), (∀ p ∈ items, FStat p.2) →
    ∀ acc f rest, termStop rest = true → 5 * (tItemsToks items).length + 5 ≤ f →
      parseM f (.termGo acc) (tItemsToks items ++ rest) = some (tFold acc items, rest) := by
  intro items
  induction items with
  | nil =>
    intro _ acc f rest hstop hfuel
    obtain ⟨f', rfl⟩ : ∃ f', f = f' + 1 := ⟨f - 1, by omega⟩
    show parseM (f' + 1) (.termGo acc) (tItemsToks [] ++ rest) = some (acc, rest)
    have he : tItemsToks [] = [] := rfl
    rw [he, List.nil_append]
    exact termGo_stop f' acc rest hstop
  | cons p items ihi =>
    obtain ⟨op, x⟩ := p
    intro hF acc f rest hstop hfuel
    have hFx : FStat x := hF (op, x) (by simp)
    have hFr : ∀ q ∈ items, FStat q.2 := fun q hq => hF q (by simp [hq])
    have hitems : tItemsToks ((op, x) :: items) =
        mulOpTok op :: (renToksF x ++ tItemsToks items) := by
      simp [tItemsToks, tItemToks]
    have hlen : (tItemsToks ((op, x) :: items)).length =
        1 + (renToksF x).length + (tItemsToks items).length := by
      rw [hitems]
      simp
      omega
    obtain ⟨f', rfl⟩ : ∃ f', f = f' + 1 := ⟨f - 1, by omega⟩
    rw [hitems, List.cons_append, List.append_assoc]
    have hstop2 : factStop (tItemsToks items ++ rest) = true := factStop_tItems items rest hstop
    have hfact := hFx f' (tItemsToks items ++ rest) hstop2 (by omega)
    have hrec := ihi hFr
    cases op with
    | mstar =>
      rw [show mulOpTok .mstar = Tok.star from rfl, parseM_termGo_star, hfact]
      show parseM f' (.termGo (.mul acc (astOf x))) (tItemsToks items ++ rest) = _
      rw [hrec (.mul acc (astOf x)) f' rest hstop (by omega)]
      rfl
    | mslash =>
      rw [show mulOpTok .mslash = Tok.slash from rfl, parseM_termGo_slash, hfact]
      show parseM f' (.termGo (.div acc (astOf x))) (tItemsToks items ++ rest) = _
      rw [hrec (.div acc (astOf x)) f' rest hstop (by omega)]
      rfl

/-! ## Lemmas: the parser accepts every rendered expression -/

theorem asize_pos (t : AExp) : 0 < asize t := by
  cases t <;> simp [asize]

theorem renCore_length_pos (t : AExp) : 0 < (renCore t).length := by
  cases t <;> simp [renCore]

theorem renToksT_length_pos (t : AExp) : 0 < (renToksT t).length := by
  rw [renToksT]
  split
  · simp
  · exact renCore_length_pos t

theorem renToksF_length_pos (t : AExp) : 0 < (renToksF t).length := by
  rw [renToksF]
  split
  · simp
  · exact renCore_length_pos t

theorem FStat_lit (n : Nat) : FStat (.lit n) := by
  intro f rest hstop hfuel
  have hren : renToksF (.lit n) = [.int n] := rfl
  rw [hren] at hfuel ⊢
  obtain ⟨f3, rfl⟩ : ∃ f3, f = f3 + 1 + 1 + 1 := ⟨f - 3, by simp at hfuel; omega⟩
  show parseM (f3 + 1 + 1) .powr (.int n :: rest) = some (astOf (.lit n), rest)
  rw [parseM_powr, parseM_atom_int]
  cases rest with
  | nil => rfl
  | cons tk l => cases tk <;> simp_all [factStop, hdNotIn] <;> rfl

theorem FStat_neg (a : AExp) (hFa : FStat a) : FStat (.neg a) := by
  intro f rest hstop hfuel
  have hren : renToksF (.neg a) = .minus :: renToksF a := rfl
  rw [hren] at hfuel ⊢
  have hc : (Tok.minus :: renToksF a).length = (renToksF a).length + 1 := rfl
  obtain ⟨f', rfl⟩ : ∃ f', f = f' + 1 := ⟨f - 1, by omega⟩
  rw [List.cons_append, parseM_fact_minus, hFa f' rest hstop (by omega)]
  rfl

theorem FStat_paren (t : AExp) (hlvl : lvlOf t < 2) (hE : EStat t) : FStat t := by
  intro f rest hstop hfuel
  have hren : renToksF t = .lpar :: renCore t ++ [.rpar] := by
    rw [renToksF, if_pos hlvl]
  rw [hren] at hfuel ⊢
  have hc : (Tok.lpar :: renCore t ++ [Tok.rpar]).length = (renCore t).length + 2 := by simp
  have hshape : (Tok.lpar :: renCore t ++ [Tok.rpar]) ++ rest =
      Tok.lpar :: (renCore t ++ (Tok.rpar :: rest)) := by simp
  rw [hshape]
  obtain ⟨f3, rfl⟩ : ∃ f3, f = f3 + 1 + 1 + 1 := ⟨f - 3, by omega⟩
  show parseM (f3 + 1 + 1) .powr (Tok.lpar :: (renCore t ++ (Tok.rpar :: rest))) =
    some (astOf t, rest)
  rw [parseM_powr, parseM_atom_lpar]
  have he : (renToksE t).length = (renCore t).length := rfl
  have hE' := hE f3 (Tok.rpar :: rest) rfl (by omega)
  rw [show renToksE t = renCore t from rfl] at hE'
  rw [hE']
  cases rest with
  | nil => rfl
  | cons tk l => cases tk <;> simp_all [factStop, hdNotIn]

theorem TStat_of_FStat (t : AExp) (heq : renToksT t = renToksF t) (hF : FStat t) :
    TStat t := by
  intro f rest hstop hfuel
  have hpos := renToksT_length_pos t
  have hlen : (renToksF t).length = (renToksT t).length := by rw [heq]
  obtain ⟨f2, rfl⟩ : ∃ f2, f = f2 + 1 + 1 := ⟨f - 2, by omega⟩
  rw [parseM_term, heq]
  rw [hF (f2 + 1) rest (factStop_of_termStop hstop) (by omega)]
  show parseM (f2 + 1) (.termGo (astOf t)) rest = some (astOf t, rest)
  exact termGo_stop f2 (astOf t) rest hstop

theorem EStat_of_TStat (t : AExp) (heq : renToksE t = renToksT t) (hT : TStat t) :
    EStat t := by
  intro f rest hstop hfuel
  have hpos := renToksT_length_pos t
  have hlen : (renToksT t).length = (renToksE t).length := by rw [heq]
  obtain ⟨f2, rfl⟩ : ∃ f2, f = f2 + 1 + 1 := ⟨f - 2, by omega⟩
  rw [parseM_expr, heq]
  rw [hT (f2 + 1) rest (termStop_of_exprStop hstop) (by omega)]
  show parseM (f2 + 1) (.exprGo (astOf t)) rest = some (astOf t, rest)
  exact exprGo_stop f2 (astOf t) rest hstop

theorem EStat_spine (t : AExp) (hTh : TStat (spineE t).1)
    (hTi : ∀ p ∈ (spineE t).2, TStat p.2) : EStat t := by
  intro f rest hstop hfuel
  have hdec := renToksE_decomp t
  have hlen : (renToksE t).length =
      (renToksT (spineE t).1).length + (eItemsToks (spineE t).2).length := by
    rw [hdec]
    simp
  obtain ⟨f', rfl⟩ : ∃ f', f = f' + 1 := ⟨f - 1, by omega⟩
  rw [hdec, List.append_assoc, parseM_expr]
  rw [hTh f' (eItemsToks (spineE t).2 ++ rest) (termStop_eItems _ _ hstop) (by omega)]
  show parseM f' (.exprGo (astOf (spineE t).1)) (eItemsToks (spineE t).2 ++ rest) =
    some (astOf t, rest)
  rw [exprGoLem (spineE t).2 hTi (astOf (spineE t).1) f' rest hstop (by omega),
    eFold_spine]

theorem TStat_spine (t : AExp) (h1 : 1 ≤ lvlOf t) (hFh : FStat (spineT t).1)
    (hFi : ∀ p ∈ (spineT t).2, FStat p.2) : TStat t := by
  intro f rest hstop hfuel
  have hdec := renToksT_decomp t h1
  have hlen : (renToksT t).length =
      (renToksF (spineT t).1).length + (tItemsToks (spineT t).2).length := by
    rw [hdec]
    simp
  obtain ⟨f', rfl⟩ : ∃ f', f = f' + 1 := ⟨f - 1, by omega⟩
  rw [hdec, List.append_assoc, parseM_term]
  rw [hFh f' (tItemsToks (spineT t).2 ++ rest) (factStop_tItems _ _ hstop) (by omega)]
  show parseM f' (.termGo (astOf (spineT t).1)) (tItemsToks (spineT t).2 ++ rest) =
    some (astOf t, rest)
  rw [termGoLem (spineT t).2 hFi (astOf (spineT t).1) f' rest hstop (by omega),
    tFold_spine]

theorem renStat : ∀ n t, asize t ≤ n → EStat t ∧ TStat t ∧ FStat t := by
  intro n
  induction n with
  | zero =>
    intro t ht
    have := asize_pos t
    omega
  | succ n ih =>
    intro t ht
    cases t with
    | lit m =>
      have hF : FStat (.lit m) := FStat_lit m
      have hT : TStat (.lit m) :=
        TStat_of_FStat _ (renToksT_eq_renToksF (by simp [lvlOf])) hF
      have hE : EStat (.lit m) :=
        EStat_of_TStat _ (renToksE_eq_renToksT (by simp [lvlOf])) hT
      exact ⟨hE, hT, hF⟩
    | neg a =>
      have hFa : FStat a := (ih a (by simp only [asize] at ht; omega)).2.2
      have hF := FStat_neg a hFa
      have hT : TStat (.neg a) :=
        TStat_of_FStat _ (renToksT_eq_renToksF (by simp [lvlOf])) hF
      have hE : EStat (.neg a) :=
        EStat_of_TStat _ (renToksE_eq_renToksT (by simp [lvlOf])) hT
      exact ⟨hE, hT, hF⟩
    | add a b =>
      have hsa : asize a ≤ n := by
        have := asize_pos b
        simp only [asize] at ht
        omega
      have hsb : asize b ≤ n := by
        have := asize_pos a
        simp only [asize] at ht
        omega
      have hTh : TStat (spineE (.add a b)).1 := by
        have hhead : (spineE (.add a b)).1 = (spineE a).1 := by simp [spineE]
        rw [hhead]
        exact (ih (spineE a).1 (le_trans (spineE_head_size a) hsa)).2.1
      have hTi : ∀ p ∈ (spineE (.add a b)).2, TStat p.2 := by
        intro p hp
        simp only [spineE, List.mem_append, List.mem_singleton] at hp
        rcases hp with hp | rfl
        · exact (ih p.2 (le_trans (spineE_items_size a p hp) hsa)).2.1
        · exact (ih b hsb).2.1
      have hE := EStat_spine _ hTh hTi
      have hF := FStat_paren _ (by simp [lvlOf]) hE
      have hT := TStat_of_FStat _ (renToksT_eq_renToksF (by simp [lvlOf])) hF
      exact ⟨hE, hT, hF⟩
    | sub a b =>
      have hsa : asize a ≤ n := by
        have := asize_pos b
        simp only [asize] at ht
        omega
      have hsb : asize b ≤ n := by
        have := asize_pos a
        simp only [asize] at ht
        omega
      have hTh : TStat (spineE (.sub a b)).1 := by
        have hhead : (spineE (.sub a b)).1 = (spineE a).1 := by simp [spineE]
        rw [hhead]
        exact (ih (spineE a).1 (le_trans (spineE_head_size a) hsa)).2.1
      have hTi : ∀ p ∈ (spineE (.sub a b)).2, TStat p.2 := by
        intro p hp
        simp only [spineE, List.mem_append, List.mem_singleton] at hp
        rcases hp with hp | rfl
        · exact (ih p.2 (le_trans (spineE_items_size a p hp) hsa)).2.1
        · exact (ih b hsb).2.1
      have hE := EStat_spine _ hTh hTi
      have hF := FStat_paren _ (by simp [lvlOf]) hE
      have hT := TStat_of_FStat _ (renToksT_eq_renToksF (by simp [lvlOf])) hF
      exact ⟨hE, hT, hF⟩
    | mul a b =>
      have hsa : asize a ≤ n := by
        have := asize_pos b
        simp only [asize] at ht
        omega
      have hsb : asize b ≤ n := by
        have := asize_pos a
        simp only [asize] at ht
        omega
      have hFh : FStat (spineT (.mul a b)).1 := by
        have hhead : (spineT (.mul a b)).1 = (spineT a).1 := by simp [spineT]
        rw [hhead]
        exact (ih (spineT a).1 (le_trans (spineT_head_size a) hsa)).2.2
      have hFi : ∀ p ∈ (spineT (.mul a b)).2, FStat p.2 := by
        intro p hp
        simp only [spineT, List.mem_append, List.mem_singleton] at hp
        rcases hp with hp | rfl
        · exact (ih p.2 (le_trans (spineT_items_size a p hp) hsa)).2.2
        · exact (ih b hsb).2.2
      have hT := TStat_spine _ (by simp [lvlOf]) hFh hFi
      have hE := EStat_of_TStat _ (renToksE_eq_renToksT (by simp [lvlOf])) hT
      have hF := FStat_paren _ (by simp [lvlOf]) hE
      exact ⟨hE, hT, hF⟩
    | div a b =>
      have hsa : asize a ≤ n := by
        have := asize_pos b
        simp only [asize] at ht
        omega
      have hsb : asize b ≤ n := by
        have := asize_pos a
        simp only [asize] at ht
        omega
      have hFh : FStat (spineT (.div a b)).1 := by
        have hhead : (spineT (.div a b)).1 = (spineT a).1 := by simp [spineT]
        rw [hhead]
        exact (ih (spineT a).1 (le_trans (spineT_head_size a) hsa)).2.2
      have hFi : ∀ p ∈ (spineT (.div a b)).2, FStat p.2 := by
        intro p hp
        simp only [spineT, List.mem_append, List.mem_singleton] at hp
        rcases hp with hp | rfl
        · exact (ih p.2 (le_trans (spineT_items_size a p hp) hsa)).2.2
        · exact (ih b hsb).2.2
      have hT := TStat_spine _ (by simp [lvlOf]) hFh hFi
      have hE := EStat_of_TStat _ (renToksE_eq_renToksT (by simp [lvlOf])) hT
      have hF := FStat_paren _ (by simp [lvlOf]) hE
      exact ⟨hE, hT, hF⟩

/-- The Python parser recovers the AST of every rendered expression. -/
theorem pyParse_renToks (t : AExp) : pyParse (renToksE t) = some (astOf t) := by
  have hE := (renStat (asize t) t le_rfl).1
  have h := hE (5 * (renToksE t).length + 10) [] rfl (by omega)
  rw [List.append_nil] at h
  unfold pyParse
  rw [h]

/-! ## Lemmas: rendered strings stay inside the allow-list -/

theorem renCore_good : ∀ t : AExp, ∀ tk ∈ renCore t, goodTok tk = true := by
  intro t
  induction t with
  | lit n =>
    intro tk htk
    simp only [renCore, List.mem_singleton] at htk
    subst htk
    rfl
  | neg a ih =>
    intro tk htk
    simp only [renCore, List.mem_cons] at htk
    rcases htk with rfl | htk
    · rfl
    · split at htk
      · simp only [List.mem_cons, List.mem_append, List.mem_singleton] at htk
        rcases htk with (rfl | htk) | rfl | h0
        · rfl
        · exact ih tk htk
        · rfl
        · simp at h0
      · exact ih tk htk
  | add a b iha ihb =>
    intro tk htk
    simp only [renCore, List.mem_append, List.mem_cons] at htk
    rcases htk with htk | rfl | htk
    · exact iha tk htk
    · rfl
    · split at htk
      · simp only [List.mem_cons, List.mem_append, List.mem_singleton] at htk
        rcases htk with (rfl | htk) | rfl | h0
        · rfl
        · exact ihb tk htk
        · rfl
        · simp at h0
      · exact ihb tk htk
  | sub a b iha ihb =>
    intro tk htk
    simp only [renCore, List.mem_append, List.mem_cons] at htk
    rcases htk with htk | rfl | htk
    · exact iha tk htk
    · rfl
    · split at htk
      · simp only [List.mem_cons, List.mem_append, List.mem_singleton] at htk
        rcases htk with (rfl | htk) | rfl | h0
        · rfl
        · exact ihb tk htk
        · rfl
        · simp at h0
      · exact ihb tk htk
  | mul a b iha ihb =>
    intro tk htk
    simp only [renCore, List.mem_append, List.mem_cons] at htk
    rcases htk with htk | rfl | htk
    · split at htk
      · simp only [List.mem_cons, List.mem_append, List.mem_singleton] at htk
        rcases htk with (rfl | htk) | rfl | h0
        · rfl
        · exact iha tk htk
        · rfl
        · simp at h0
      · exact iha tk htk
    · rfl
    · split at htk
      · simp only [List.mem_cons, List.mem_append, List.mem_singleton] at htk
        rcases htk with (rfl | htk) | rfl | h0
        · rfl
        · exact ihb tk htk
        · rfl
        · simp at h0
      · exact ihb tk htk
  | div a b iha ihb =>
    intro tk htk
    simp only [renCore, List.mem_append, List.mem_cons] at htk
    rcases htk with htk | rfl | htk
    · split at htk
      · simp only [List.mem_cons, List.mem_append, List.mem_singleton] at htk
        rcases htk with (rfl | htk) | rfl | h0
        · rfl
        · exact iha tk htk
        · rfl
        · simp at h0
      · exact iha tk htk
    · rfl
    · split at htk
      · simp only [List.mem_cons, List.mem_append, List.mem_singleton] at htk
        rcases htk with (rfl | htk) | rfl | h0
        · rfl
        · exact ihb tk htk
        · rfl
        · simp at h0
      · exact ihb tk htk

theorem tokStr_allowed (tk : Tok) (hgood : goodTok tk = true) :
    ∀ c ∈ tokStr tk, allowedChars.contains c = true := by
  cases tk with
  | int n => exact fun c hc => natDigs_allowed n c hc
  | flt q => simp [goodTok] at hgood
  | dstar => simp [goodTok] at hgood
  | dslash => simp [goodTok] at hgood
  | plus => intro c hc; simp [tokStr] at hc; subst hc; decide
  | minus => intro c hc; simp [tokStr] at hc; subst hc; decide
  | star => intro c hc; simp [tokStr] at hc; subst hc; decide
  | slash => intro c hc; simp [tokStr] at hc; subst hc; decide
  | lpar => intro c hc; simp [tokStr] at hc; subst hc; decide
  | rpar => intro c hc; simp [tokStr] at hc; subst hc; decide

theorem tokLine_allowed : ∀ ts : List Tok, (∀ tk ∈ ts, goodTok tk = true) →
    ∀ c ∈ tokLine ts, allowedChars.contains c = true := by
  intro ts
  induction ts with
  | nil => intro _ c hc; simp [tokLine] at hc
  | cons t ts ih =>
    intro hgood c hc
    have hgt := hgood t (by simp)
    have hgts : ∀ x ∈ ts, goodTok x = true := fun x hx => hgood x (by simp [hx])
    cases ts with
    | nil =>
      have hline : tokLine [t] = tokStr t ++ [] := rfl
      rw [hline] at hc
      rcases List.mem_append.mp hc with hc | hc
      · exact tokStr_allowed t hgt c hc
      · simp at hc
    | cons t2 ts2 =>
      have hline : tokLine (t :: t2 :: ts2) = tokStr t ++ (' ' :: tokLine (t2 :: ts2)) := rfl
      rw [hline] at hc
      rcases List.mem_append.mp hc with hc | hc
      · exact tokStr_allowed t hgt c hc
      · rcases List.mem_cons.mp hc with rfl | hc
        · decide
        · exact ih hgts c hc

theorem okChars_render (t : AExp) : okChars (render t) = true := by
  show (tokLine (renToksE t)).all (fun c => allowedChars.contains c) = true
  rw [List.all_eq_true]
  exact fun c hc => tokLine_allowed (renToksE t) (renCore_good t) c hc

/-! ## Lemmas: evaluation of division-free expressions -/

theorem pyEvalAst_astOf : ∀ (t : AExp) (n : Int), ieval t = some n →
    pyEvalAst (astOf t) = .ok (.int n) := by
  intro t
  induction t with
  | lit m =>
    intro n hn
    simp only [ieval, Option.some_inj] at hn
    subst hn
    rfl
  | neg a ih =>
    intro n hn
    simp only [ieval, Option.map_eq_some'] at hn
    obtain ⟨x, hx, rfl⟩ := hn
    simp only [astOf, pyEvalAst, ih x hx]
    rfl
  | add a b iha ihb =>
    intro n hn
    simp only [ieval] at hn
    cases ha : ieval a with
    | none => rw [ha] at hn; simp at hn
    | some x =>
      cases hb : ieval b with
      | none => rw [ha, hb] at hn; simp at hn
      | some y =>
        rw [ha, hb] at hn
        simp only [Option.some_inj] at hn
        subst hn
        simp only [astOf, pyEvalAst, iha x ha, ihb y hb]
        rfl
  | sub a b iha ihb =>
    intro n hn
    simp only [ieval] at hn
    cases ha : ieval a with
    | none => rw [ha] at hn; simp at hn
    | some x =>
      cases hb : ieval b with
      | none => rw [ha, hb] at hn; simp at hn
      | some y =>
        rw [ha, hb] at hn
        simp only [Option.some_inj] at hn
        subst hn
        simp only [astOf, pyEvalAst, iha x ha, ihb y hb]
        rfl
  | mul a b iha ihb =>
    intro n hn
    simp only [ieval] at hn
    cases ha : ieval a with
    | none => rw [ha] at hn; simp at hn
    | some x =>
      cases hb : ieval b with
      | none => rw [ha, hb] at hn; simp at hn
      | some y =>
        rw [ha, hb] at hn
        simp only [Option.some_inj] at hn
        subst hn
        simp only [astOf, pyEvalAst, iha x ha, ihb y hb]
        rfl
  | div a b iha ihb =>
    intro n hn
    simp [ieval] at hn

theorem ieval_aeval : ∀ (t : AExp) (n : Int), ieval t = some n →
    aeval t = some (n : ℚ) := by
  intro t
  induction t with
  | lit m =>
    intro n hn
    simp only [ieval, Option.some_inj] at hn
    subst hn
    simp [aeval]
  | neg a ih =>
    intro n hn
    simp only [ieval, Option.map_eq_some'] at hn
    obtain ⟨x, hx, rfl⟩ := hn
    simp [aeval, ih x hx]
  | add a b iha ihb =>
    intro n hn
    simp only [ieval] at hn
    cases ha : ieval a with
    | none => rw [ha] at hn; simp at hn
    | some x =>
      cases hb : ieval b with
      | none => rw [ha, hb] at hn; simp at hn
      | some y =>
        rw [ha, hb] at hn
        simp only [Option.some_inj] at hn
        subst hn
        simp [aeval, iha x ha, ihb y hb]
  | sub a b iha ihb =>
    intro n hn
    simp only [ieval] at hn
    cases ha : ieval a with
    | none => rw [ha] at hn; simp at hn
    | some x =>
      cases hb : ieval b with
      | none => rw [ha, hb] at hn; simp at hn
      | some y =>
        rw [ha, hb] at hn
        simp only [Option.some_inj] at hn
        subst hn
        simp [aeval, iha x ha, ihb y hb]
  | mul a b iha ihb =>
    intro n hn
    simp only [ieval] at hn
    cases ha : ieval a with
    | none => rw [ha] at hn; simp at hn
    | some x =>
      cases hb : ieval b with
      | none => rw [ha, hb] at hn; simp at hn
      | some y =>
        rw [ha, hb] at hn
        simp only [Option.some_inj] at hn
        subst hn
        simp [aeval, iha x ha, ihb y hb]
  | div a b iha ihb =>
    intro n hn
    simp [ieval] at hn

/-- `execute` on a rendered division-free expression returns the exact decimal
string of its integer value. -/
theorem execute_render (t : AExp) (n : Int) (h : ieval t = some n) :
    execute (render t) = intStr n := by
  have hok : okChars (render t) = true := okChars_render t
  have htok : pyTok (render t) = some (renToksE t) :=
    pyTok_tokLine (renToksE t) (renCore_good t)
  have hrun : pyRun (render t) = .ok (.int n) := by
    unfold pyRun
    rw [htok]
    show (match pyParse (renToksE t) with
      | some a => pyEvalAst a
      | none => Except.error PyExn.synErr) = Except.ok (PyVal.int n)
    rw [pyParse_renToks]
    exact pyEvalAst_astOf t n h
  have hbody : executeBody (render t) = .ok (intStr n) := by
    unfold executeBody
    rw [hok, hrun]
    rfl
  unfold execute
  rw [hbody]

/-! ## Lemmas: decimal denotation of integer strings -/

theorem decValPos_natDigs (m : Nat) : decValPos (natDigs m) = some (m : ℚ) := by
  have htake : (natDigs m).takeWhile Char.isDigit = natDigs m := by
    have := takeWhile_append_all (natDigs m) [] (natDigs_isDigit m) trivial
    rwa [List.append_nil] at this
  have hdrop : (natDigs m).dropWhile Char.isDigit = [] := by
    have := dropWhile_append_all (natDigs m) [] (natDigs_isDigit m) trivial
    rwa [List.append_nil] at this
  have hne : (natDigs m).isEmpty = false := by
    rcases hl : natDigs m with _ | ⟨c, cs⟩
    · exact absurd hl (natDigs_ne_nil m)
    · rfl
  simp only [decValPos, htake, hdrop, hne, Bool.false_eq_true, if_false, natDigs_val]

theorem decVal_intStr (n : Int) : decVal (intStr n) = some (n : ℚ) := by
  by_cases hn : n < 0
  · have hdata : (intStr n).data = '-' :: natDigs n.natAbs := by
      simp only [intStr, if_pos hn]
      rw [String.data_append]
      rfl
    unfold decVal
    rw [hdata]
    show (decValPos (natDigs n.natAbs)).map (fun q => -q) = some (n : ℚ)
    rw [decValPos_natDigs]
    simp only [Option.map_some']
    congr 1
    rw [Int.cast_natAbs]
    rw [abs_of_nonpos (by omega : n ≤ 0)]
    push_cast
    ring
  · have hdata : (intStr n).data = natDigs n.natAbs := by
      simp only [intStr, if_neg hn]
    rcases hl : natDigs n.natAbs with _ | ⟨c, cs⟩
    · exact absurd hl (natDigs_ne_nil n.natAbs)
    · have hcm : c ≠ '-' := by
        obtain ⟨k, hk, rfl⟩ := natDigs_mem n.natAbs c (by rw [hl]; simp)
        exact (digitChar_spec k hk).2.2.2.2.2
      unfold decVal
      rw [hdata, hl]
      split
      · next heq => exact absurd (by injection heq) hcm
      · rw [← hl, decValPos_natDigs]
        congr 1
        rw [Int.cast_natAbs]
        exact_mod_cast abs_of_nonneg (by omega : (0 : Int) ≤ n)

/-! ## The claims -/

set_option maxRecDepth 200000 in
/-- Claim C1: on a fresh agent holding the scripted model and the calculator
tool, `run("Please calculate 25 * 4 for me.")` terminates normally and leaves
Memory containing, in order, the user message, the tool message with content
"100" and metadata `tool = "calculator"`, and the final assistant message
"The result of the calculation is 100". -/
theorem claim_C1 :
    (run mockGenerate calcTools [] "Please calculate 25 * 4 for me.").memory =
      [⟨"user", "Please calculate 25 * 4 for me.", []⟩,
        ⟨"tool", "100", [("tool", "calculator")]⟩,
        ⟨"assistant", "The result of the calculation is 100", []⟩] ∧
      (run mockGenerate calcTools [] "Please calculate 25 * 4 for me.").exn = none := by
  constructor <;> rfl

set_option maxRecDepth 200000 in
/-- Claim C2: on every non-empty history the scripted model returns exactly one
of four outputs, determined by the last message alone: a JSON serialization of
the fixed decision object (tool `"calculator"`, expression the fixed literal
`"25 * 4"`) when the last message is a user message containing "calculate"
case-insensitively; the fixed self-description for other user messages; the
fixed result sentence around the content of a last tool message; and the fixed
fallback text otherwise. -/
theorem claim_C2 (msgs : List Message) (last : Message)
    (h : msgs.getLast? = some last) :
    mockGenerate msgs = .ok
        (if last.role = "user" then
          (if hasCalc last.content then decisionJson else simpleAgentText)
        else if last.role = "tool" then
          "The result of the calculation is " ++ last.content
        else dontKnowText) ∧
      jsonLoads decisionJson = some decisionObj := by
  constructor
  · unfold mockGenerate
    rw [h]
    by_cases h1 : last.role = "user" <;> by_cases h2 : hasCalc last.content <;>
      by_cases h3 : last.role = "tool" <;> simp [h1, h2, h3]
  · rfl

set_option maxRecDepth 200000 in
/-- Witness for C2 at a one-message history whose user text contains
"CALCULATE" (case-insensitively). -/
theorem claim_C2_witness :
    ([(⟨"user", "Please CALCULATE this", []⟩ : Message)].getLast? =
        some (⟨"user", "Please CALCULATE this", []⟩ : Message)) ∧
      (mockGenerate [(⟨"user", "Please CALCULATE this", []⟩ : Message)] = .ok
          (if (⟨"user", "Please CALCULATE this", []⟩ : Message).role = "user" then
            (if hasCalc (⟨"user", "Please CALCULATE this", []⟩ : Message).content then
              decisionJson
            else simpleAgentText)
          else if (⟨"user", "Please CALCULATE this", []⟩ : Message).role = "tool" then
            "The result of the calculation is " ++
              (⟨"user", "Please CALCULATE this", []⟩ : Message).content
          else dontKnowText) ∧
        jsonLoads decisionJson = some decisionObj) :=
  ⟨rfl, claim_C2 [⟨"user", "Please CALCULATE this", []⟩]
    ⟨"user", "Please CALCULATE this", []⟩ rfl⟩

/-- Claim C3: an expression containing any character outside the allow-list is
answered with the fixed invalid-characters error text: the allow-list check
fails before `eval` is ever consulted, and nothing is raised. -/
theorem claim_C3 (e : String) (c : Char) (hc : c ∈ e.data)
    (hbad : allowedChars.contains c = false) :
    execute e = "Error: Invalid characters in expression." := by
  have hok : okChars e = false := by
    unfold okChars
    rw [List.all_eq_false]
    exact ⟨c, hc, by rw [hbad]; simp⟩
  unfold execute executeBody
  rw [hok]
  rfl

/-- Witness for C3 at the spec's example `"2+2; rm"` (the character `;` is
outside the allow-list). -/
theorem claim_C3_witness :
    ';' ∈ "2+2; rm".data ∧ allowedChars.contains ';' = false ∧
      execute "2+2; rm" = "Error: Invalid characters in expression." :=
  ⟨by decide, by decide, claim_C3 "2+2; rm" ';' (by decide) (by decide)⟩

/-- Claim C4: every failure of the evaluation step is caught inside `execute`
and surfaced as error text, and the keyword-level call with a bound
`expression` argument returns normally (no exception propagates to the
caller). -/
theorem claim_C4 (e : String) (ex : PyExn) (h : executeBody e = .error ex) :
    execute e = "Error executing calculation: " ++ pyExnMsg ex ∧
      ∀ v : JVal, calcExecuteKw [("expression", v)] = .ok (executeVal v) := by
  constructor
  · unfold execute
    rw [h]
  · intro v
    rfl

set_option maxRecDepth 200000 in
/-- Witness for C4 at `"1/0"`, whose evaluation raises `ZeroDivisionError`. -/
theorem claim_C4_witness :
    executeBody "1/0" = .error .zeroDiv ∧
      execute "1/0" = "Error executing calculation: " ++ pyExnMsg .zeroDiv ∧
      calcExecuteKw [("expression", .jstr "1/0")] = .ok (executeVal (.jstr "1/0")) :=
  ⟨rfl, (claim_C4 "1/0" .zeroDiv rfl).1, (claim_C4 "1/0" .zeroDiv rfl).2 (.jstr "1/0")⟩

/-- Claim C7, as stated, is false: the expression `"1 / 0"` (the rendering of
`1 / 0`) contains only allowed characters and is syntactically valid
arithmetic, yet it has no value (division by zero), so `execute` cannot return
"the exact decimal string of the result" — it returns error text instead. -/
theorem claim_C7_counterexample :
    ¬ (∀ (t : AExp) (e : String), render t = e → okChars e = true →
        ∃ q : ℚ, aeval t = some q ∧ decVal (execute e) = some q) := by
  intro h
  obtain ⟨q, hq, _⟩ := h (.div (.lit 1) (.lit 0)) "1 / 0" rfl (by decide)
  have hnone : aeval (.div (.lit 1) (.lit 0)) = none := by
    simp [aeval]
  rw [hnone] at hq
  exact Option.noConfusion hq

/-- Claim C7, amended to the fragment on which it holds: for every
division-free integer arithmetic expression, the rendered string consists only
of allowed characters and `execute` returns the exact decimal string of its
integer value (which is also its exact value under standard precedence). -/
theorem claim_C7_amended (t : AExp) (n : Int) (h : ieval t = some n) :
    okChars (render t) = true ∧ execute (render t) = intStr n ∧
      decVal (execute (render t)) = some (n : ℚ) ∧ aeval t = some (n : ℚ) := by
  refine ⟨okChars_render t, execute_render t n h, ?_, ieval_aeval t n h⟩
  rw [execute_render t n h]
  exact decVal_intStr n

set_option maxRecDepth 200000 in
/-- Witness for the amended C7 at `25 * 4` (the spec's example): the rendering
is `"25 * 4"` and `execute` returns `"100"`. -/
theorem claim_C7_witness :
    ieval (AExp.mul (.lit 25) (.lit 4)) = some 100 ∧
      render (AExp.mul (.lit 25) (.lit 4)) = "25 * 4" ∧
      intStr 100 = "100" ∧
      (okChars (render (AExp.mul (.lit 25) (.lit 4))) = true ∧
        execute (render (AExp.mul (.lit 25) (.lit 4))) = intStr 100 ∧
        decVal (execute (render (AExp.mul (.lit 25) (.lit 4)))) = some (100 : ℚ) ∧
        aeval (AExp.mul (.lit 25) (.lit 4)) = some (100 : ℚ)) :=
  ⟨rfl, rfl, rfl, claim_C7_amended (AExp.mul (.lit 25) (.lit 4)) 100 rfl⟩

/-- Claim C9, as stated, is false: `add_message` performs no validation at
all.  A message whose role `"bogus"` is outside the four permitted values is
appended exactly like a valid one, with no error and no rejection. -/
theorem claim_C9_counterexample :
    "bogus" ∉ permittedRoles ∧
      addMessage [] ⟨"bogus", "hi", []⟩ = [⟨"bogus", "hi", []⟩] :=
  ⟨by decide, rfl⟩

/-- Claim C9, amended: `add_message(message)` appends the given message at the
end of the sequence and performs no validation whatsoever (any role string is
accepted). -/
theorem claim_C9_amended (ms : List Message) (m : Message) :
    (addMessage ms m).dropLast = ms ∧ (addMessage ms m).getLast? = some m := by
  constructor
  · exact List.dropLast_concat
  · exact List.getLast?_concat ms

/-- A benign `tool` entry makes `tool_name and tool_name in self.tools` reach
the no-tool branch without raising. -/
theorem truthyAndMem_of_noTool (kvs : List (String × JVal))
    (tools : List (String × PyTool)) (h : noToolSelected kvs tools = true) :
    truthyAndMem (jGetD kvs "tool" .jnull) tools = .ok none := by
  unfold noToolSelected at h
  unfold jGetD
  cases hto : objGet kvs "tool" with
  | none => rfl
  | some v =>
    rw [hto] at h
    cases v with
    | jnull => rfl
    | jbool b => cases b <;> rfl
    | jint n =>
      unfold truthyAndMem
      split <;> rfl
    | jfloat x =>
      unfold truthyAndMem
      split <;> rfl
    | jnan => rfl
    | jinf b => rfl
    | jstr s =>
      by_cases hs : s = ""
      · subst hs
        rfl
      · have h2 : s = "" ∨ toolLookup s tools = none := by
          simpa [Option.isNone_iff_eq_none] using h
        have hl : toolLookup s tools = none := h2.resolve_left hs
        have ht : truthy (.jstr s) = true := by simp [truthy, hs]
        unfold truthyAndMem
        rw [if_pos ht]
        show (match toolLookup s tools with
          | some t => Except.ok (some (s, t))
          | none => Except.ok none) = Except.ok none
        rw [hl]
    | jarr items =>
      have : items = [] := by simpa using h
      subst this
      rfl
    | jobj l =>
      have : l = [] := by simpa using h
      subst this
      rfl

set_option maxRecDepth 200000 in
/-- Claim C6, as stated, is false on its second branch: with the model
returning `{"tool": [1]}`, parsing succeeds and the decision carries a `tool`
entry naming no tool in the mapping, yet the raw decision text is not surfaced
as the response — probing the tool dict with the unhashable list raises
`TypeError`, which escapes `run` (memory still gains nothing beyond the user
message). -/
theorem claim_C6_counterexample :
    jsonLoads "\x7b\"tool\": [1]\x7d" = some (.jobj [("tool", .jarr [.jint 1])]) ∧
      objGet [("tool", JVal.jarr [.jint 1])] "tool" = some (.jarr [.jint 1]) ∧
      run (fun _ => .ok "\x7b\"tool\": [1]\x7d") calcTools [] "hi" =
        ⟨[userLine "hi", "[Agent Thought]: None"], [userMsg "hi"], some .typeErr⟩ ∧
      ∀ l ∈ (run (fun _ => .ok "\x7b\"tool\": [1]\x7d") calcTools [] "hi").trace,
        l ≠ respLine "\x7b\"tool\": [1]\x7d" := by
  refine ⟨rfl, rfl, rfl, ?_⟩
  have hrun : (run (fun _ => .ok "\x7b\"tool\": [1]\x7d") calcTools [] "hi").trace =
      [userLine "hi", "[Agent Thought]: None"] := rfl
  rw [hrun]
  intro l hl
  rcases List.mem_cons.mp hl with rfl | hl
  · decide
  · rcases List.mem_cons.mp hl with rfl | hl
    · decide
    · simp at hl

/-- Claim C6, amended: if the model response fails to parse as JSON, the raw
response text is printed and appended to Memory as the assistant message with
no tool phase; if it parses to a JSON object whose `tool` entry selects no
tool — absent, `null`, an empty string, an unmapped name, a number, a boolean,
or an empty container (a truthy list or dict instead raises `TypeError`) —
the raw decision text is printed as the response and nothing beyond the user
message is appended. -/
theorem claim_C6_amended (g : List Message → Except PyExn String)
    (tools : List (String × PyTool)) (mem : List Message) (q r : String)
    (hr : g (mem ++ [userMsg q]) = .ok r) :
    (jsonLoads r = none →
      run g tools mem q =
        ⟨[userLine q, respLine r],
          (mem ++ [userMsg q]) ++ [⟨"assistant", r, []⟩], none⟩) ∧
    (∀ kvs, jsonLoads r = some (.jobj kvs) → noToolSelected kvs tools = true →
      run g tools mem q =
        ⟨[userLine q, thoughtLine (jGetD kvs "thought" .jnull), respLine r],
          mem ++ [userMsg q], none⟩) := by
  constructor
  · intro hjs
    simp only [run, getHistory, addMessage, hr, hjs]
    rfl
  · intro kvs hjs hnt
    simp only [run, getHistory, addMessage, hr, hjs,
      truthyAndMem_of_noTool kvs tools hnt]
    rfl

set_option maxRecDepth 200000 in
/-- Witness for the amended C6: both branches at concrete inputs — a plain-text
response on the first, and a decision naming the unmapped tool "weather" on
the second. -/
theorem claim_C6_witness :
    run (fun _ => .ok "hello there") calcTools [] "hi" =
        ⟨[userLine "hi", respLine "hello there"],
          (([] : List Message) ++ [userMsg "hi"]) ++ [⟨"assistant", "hello there", []⟩],
          none⟩ ∧
      run (fun _ => .ok "\x7b\"tool\": \"weather\"\x7d") calcTools [] "hi" =
        ⟨[userLine "hi",
            thoughtLine (jGetD [("tool", JVal.jstr "weather")] "thought" .jnull),
            respLine "\x7b\"tool\": \"weather\"\x7d"],
          ([] : List Message) ++ [userMsg "hi"], none⟩ :=
  ⟨(claim_C6_amended (fun _ => .ok "hello there") calcTools [] "hi" "hello there"
      rfl).1 rfl,
    (claim_C6_amended (fun _ => .ok "\x7b\"tool\": \"weather\"\x7d") calcTools []
      "hi" "\x7b\"tool\": \"weather\"\x7d" rfl).2 [("tool", .jstr "weather")] rfl rfl⟩

set_option maxRecDepth 200000 in
/-- Claim C5, as stated, is false: with the model returning the decision
`{"tool": "calculator"}` — a structured decision whose `tool_input` key is
absent — `execute` is called with an empty argument set, and binding
`**{}` against the required `expression` parameter raises `TypeError`, which
escapes `run` (only `json.JSONDecodeError` is caught). -/
theorem claim_C5_counterexample :
    jsonLoads "\x7b\"tool\": \"calculator\"\x7d" =
        some (.jobj [("tool", .jstr "calculator")]) ∧
      (run (fun _ => .ok "\x7b\"tool\": \"calculator\"\x7d") calcTools [] "hi").exn =
        some .typeErr :=
  ⟨rfl, rfl⟩

/-- Claim C5, amended: `run` on the calculator agent completes without raising
provided every model reply is a text that either fails to parse as JSON or
parses to a JSON object whose `tool` entry (if any) is neither a non-empty
list nor a non-empty dict (those are truthy yet unhashable, so the membership
probe raises `TypeError`) and, whenever it is a non-empty string naming the
mapped calculator tool, comes with a `tool_input` object binding exactly the
`expression` keyword (with any JSON value). -/
theorem claim_C5_amended (g : List Message → Except PyExn String)
    (mem : List Message) (q : String)
    (hg : ∀ msgs : List Message, ∃ r, g msgs = .ok r ∧ responseOk r = true) :
    (run g calcTools mem q).exn = none := by
  obtain ⟨r, hr, hok⟩ := hg (mem ++ [userMsg q])
  simp only [run, getHistory, addMessage, hr]
  cases hjs : jsonLoads r with
  | none => rfl
  | some v =>
    have hok2 := hok
    unfold responseOk at hok2
    rw [hjs] at hok2
    cases v with
    | jnull => exact Bool.noConfusion hok2
    | jbool b => exact Bool.noConfusion hok2
    | jint n => exact Bool.noConfusion hok2
    | jfloat x => exact Bool.noConfusion hok2
    | jnan => exact Bool.noConfusion hok2
    | jinf b => exact Bool.noConfusion hok2
    | jstr s => exact Bool.noConfusion hok2
    | jarr items => exact Bool.noConfusion hok2
    | jobj kvs =>
      have hdec : calcDecisionOk kvs = true := hok2
      unfold calcDecisionOk at hdec
      split at hdec
      · next s heq =>
        by_cases hs : s = ""
        · subst hs
          have h1 : truthyAndMem (jGetD kvs "tool" .jnull) calcTools = .ok none := by
            unfold jGetD
            rw [heq]
            rfl
          simp only [h1]
        · rw [if_neg (show ¬((s == "") = true) by simp [hs])] at hdec
          cases hlk : toolLookup s calcTools with
          | none =>
            have h1 : truthyAndMem (jGetD kvs "tool" .jnull) calcTools = .ok none := by
              unfold jGetD
              rw [heq]
              unfold truthyAndMem
              rw [if_pos (by simp [truthy, hs])]
              show (match toolLookup s calcTools with
                | some t => Except.ok (some (s, t))
                | none => Except.ok none) = Except.ok none
              rw [hlk]
            simp only [h1]
          | some t =>
            have hst : s = "calculator" ∧ t = calcExecuteKw := by
              have hlk2 : (if "calculator" = s then some calcExecuteKw else none) =
                  some t := hlk
              split at hlk2
              · exact ⟨(by assumption : "calculator" = s).symm,
                  (Option.some_inj.mp hlk2).symm⟩
              · exact absurd hlk2 (by simp)
            obtain ⟨rfl, rfl⟩ := hst
            rw [hlk] at hdec
            rw [if_pos (show (some calcExecuteKw : Option PyTool).isSome = true from rfl)]
              at hdec
            split at hdec
            · next ikvs heq2 =>
              rw [Bool.and_eq_true] at hdec
              obtain ⟨hall, hsome⟩ := hdec
              obtain ⟨v0, hv0⟩ := Option.isSome_iff_exists.mp hsome
              have h1 : truthyAndMem (jGetD kvs "tool" .jnull) calcTools =
                  .ok (some ("calculator", calcExecuteKw)) := by
                unfold jGetD
                rw [heq]
                rfl
              have h3 : callKw calcExecuteKw (jGetD kvs "tool_input" (.jobj [])) =
                  .ok (executeVal v0) := by
                unfold jGetD
                rw [heq2]
                show calcExecuteKw ikvs = .ok (executeVal v0)
                unfold calcExecuteKw
                rw [if_pos hall, hv0]
              obtain ⟨r2, hr2, _⟩ := hg ((mem ++ [userMsg q]) ++
                [⟨"tool", executeVal v0, [("tool", "calculator")]⟩])
              simp only [h1, h3, getHistory, addMessage, hr2]
            · next x hne heq2 => exact Bool.noConfusion hdec
      · next l heq =>
        have hl : l = [] := by simpa using hdec
        subst hl
        have h1 : truthyAndMem (jGetD kvs "tool" .jnull) calcTools = .ok none := by
          unfold jGetD
          rw [heq]
          rfl
        simp only [h1]
      · next l heq =>
        have hl : l = [] := by simpa using hdec
        subst hl
        have h1 : truthyAndMem (jGetD kvs "tool" .jnull) calcTools = .ok none := by
          unfold jGetD
          rw [heq]
          rfl
        simp only [h1]
      · next heq =>
        have h1 : truthyAndMem (jGetD kvs "tool" .jnull) calcTools = .ok none := by
          unfold jGetD
          rw [heq]
          rfl
        simp only [h1]
      · next heq =>
        have h1 : truthyAndMem (jGetD kvs "tool" .jnull) calcTools = .ok none := by
          unfold jGetD
          rw [heq]
          rfl
        simp only [h1]
      · next b heq =>
        have h1 : truthyAndMem (jGetD kvs "tool" .jnull) calcTools = .ok none := by
          unfold jGetD
          rw [heq]
          cases b <;> rfl
        simp only [h1]
      · next n heq =>
        have h1 : truthyAndMem (jGetD kvs "tool" .jnull) calcTools = .ok none := by
          unfold jGetD
          rw [heq]
          unfold truthyAndMem
          split <;> rfl
        simp only [h1]
      · next x heq =>
        have h1 : truthyAndMem (jGetD kvs "tool" .jnull) calcTools = .ok none := by
          unfold jGetD
          rw [heq]
          unfold truthyAndMem
          split <;> rfl
        simp only [h1]
      · next heq =>
        have h1 : truthyAndMem (jGetD kvs "tool" .jnull) calcTools = .ok none := by
          unfold jGetD
          rw [heq]
          rfl
        simp only [h1]
      · next b heq =>
        have h1 : truthyAndMem (jGetD kvs "tool" .jnull) calcTools = .ok none := by
          unfold jGetD
          rw [heq]
          rfl
        simp only [h1]

set_option maxRecDepth 200000 in
/-- Witness for the amended C5: a model that always answers plain text (not
JSON) never makes `run` raise. -/
theorem claim_C5_witness :
    (run (fun _ => .ok "hello there") calcTools [] "hi").exn = none :=
  claim_C5_amended (fun _ => .ok "hello there") [] "hi"
    (fun _ => ⟨"hello there", rfl, rfl⟩)

/-- Claim C8: Memory is append-only — `add_message` appends at the end,
`get_history` returns the sequence unchanged, and every `run` call (with any
model and tools, raising or not) leaves the prior messages as an unchanged
prefix of the final memory, in order. -/
theorem claim_C8 :
    (∀ (ms : List Message) (m : Message), addMessage ms m = ms ++ [m]) ∧
      (∀ ms : List Message, getHistory ms = ms) ∧
      ∀ (g : List Message → Except PyExn String) (tools : List (String × PyTool))
        (mem : List Message) (q : String),
        ∃ tail, (run g tools mem q).memory = mem ++ tail := by
  refine ⟨fun ms m => rfl, fun ms => rfl, ?_⟩
  intro g tools mem q
  simp only [run, getHistory, addMessage]
  split
  · exact ⟨[userMsg q], rfl⟩
  · next r hr =>
    split
    · exact ⟨[userMsg q, ⟨"assistant", r, []⟩], by simp⟩
    · next kvs hkvs =>
      split
      · exact ⟨[userMsg q], rfl⟩
      · exact ⟨[userMsg q], rfl⟩
      · next nm tl htm =>
        split
        · exact ⟨[userMsg q], rfl⟩
        · next tr htr =>
          split
          · exact ⟨[userMsg q, ⟨"tool", tr, [("tool", nm)]⟩], by simp⟩
          · next fr hfr =>
            exact ⟨[userMsg q, ⟨"tool", tr, [("tool", nm)]⟩,
              ⟨"assistant", fr, []⟩], by simp⟩
    · exact ⟨[userMsg q], rfl⟩

set_option maxRecDepth 200000 in
/-- Claim C10: the scripted model's `generate` reads `messages[-1]`, so on an
empty history it raises `IndexError` rather than returning text; inside `run`
that branch is unreachable — the user message is appended before every
`generate` call, so the calculator agent's `run` never sees that error (its
`exn` is always `none`, for every prior memory and every query). -/
theorem claim_C10 :
    mockGenerate [] = .error .indexErr ∧
      ∀ (mem : List Message) (q : String),
        (run mockGenerate calcTools mem q).exn = none := by
  refine ⟨rfl, ?_⟩
  intro mem q
  have h1 : mockGenerate (mem ++ [userMsg q]) =
      .ok (if hasCalc q then decisionJson else simpleAgentText) := by
    unfold mockGenerate
    rw [List.getLast?_concat]
    show (if hasCalc q then Except.ok decisionJson else Except.ok simpleAgentText) = _
    cases hasCalc q <;> rfl
  simp only [run, getHistory, addMessage, h1]
  cases hc : hasCalc q with
  | false =>
    have hjs : jsonLoads simpleAgentText = none := rfl
    simp only [Bool.false_eq_true, if_false, hjs]
  | true =>
    have hdec : jsonLoads decisionJson =
        some (.jobj [("thought", .jstr calcThought), ("tool", .jstr "calculator"),
          ("tool_input", .jobj [("expression", .jstr "25 * 4")])]) := rfl
    have h4 : truthyAndMem
        (jGetD [("thought", JVal.jstr calcThought), ("tool", .jstr "calculator"),
          ("tool_input", .jobj [("expression", .jstr "25 * 4")])] "tool" .jnull)
        calcTools = .ok (some ("calculator", calcExecuteKw)) := rfl
    have h3 : callKw calcExecuteKw
        (jGetD [("thought", JVal.jstr calcThought), ("tool", .jstr "calculator"),
          ("tool_input", .jobj [("expression", .jstr "25 * 4")])] "tool_input"
          (.jobj [])) = .ok "100" := rfl
    have h2 : mockGenerate ((mem ++ [userMsg q]) ++
        [⟨"tool", "100", [("tool", "calculator")]⟩]) =
        .ok "The result of the calculation is 100" := by
      unfold mockGenerate
      rw [List.getLast?_concat]
      rfl
    simp only [if_true, hdec, h4, h3, getHistory, addMessage, h2]

end AgenticSystem
